import Mathlib

/-!
Verification of the audit agent's execution engine (audit_agent.py):
the action-call parser `parse_action`, the tool dispatcher `execute_tool`,
and the conversation loop `AuditAgent.run`, shallowly embedded over
`List Char` / `String` with Python string semantics reproduced explicitly
(ASCII fragment; Python's `str` methods behave identically on the ASCII
inputs considered here).
-/

namespace AuditCore

/-- Python `str.strip` whitespace characters (the ASCII ones). -/
def pyWs (c : Char) : Bool :=
  c = ' ' || c = '\t' || c = '\n' || c = '\x0d' || c = '\x0b' || c = '\x0c'

/-- Strip `pyWs` characters from both ends, as Python `str.strip()`. -/
def stripList (l : List Char) : List Char :=
  ((l.dropWhile pyWs).reverse.dropWhile pyWs).reverse

def pyStrip (s : String) : String := String.mk (stripList s.data)

/-- Split on every occurrence of a single character, as Python
`str.split(c)` (no collapsing of empty segments). -/
def splitCh (sep : Char) : List Char → List (List Char)
  | [] => [[]]
  | c :: rest =>
    match splitCh sep rest with
    | [] => [[c]]
    | g :: gs => if c = sep then [] :: g :: gs else (c :: g) :: gs

def pySplitNL (s : String) : List String := (splitCh '\n' s.data).map String.mk

/-- Python substring containment `pat in s`. -/
def containsSub (pat : List Char) : List Char → Bool
  | [] => pat.isEmpty
  | c :: rest => pat.isPrefixOf (c :: rest) || containsSub pat rest

def pyIn (pat s : String) : Bool := containsSub pat.data s.data

def pyStartsWith (pat s : String) : Bool := pat.data.isPrefixOf s.data

def pyLower (s : String) : String := String.mk (s.data.map Char.toLower)

/-- Python `str.replace(pat, rep, 1)` (first occurrence only), on char
lists, fuelled for structural recursion; fuel `≥ length` is exact. -/
def replFirst (pat rep : List Char) : Nat → List Char → List Char
  | _, [] => []
  | 0, l => l
  | fuel + 1, c :: rest =>
    if pat.isPrefixOf (c :: rest) then rep ++ (c :: rest).drop pat.length
    else c :: replFirst pat rep fuel rest

def pyReplaceFirst (s pat rep : String) : String :=
  String.mk (replFirst pat.data rep.data s.data.length s.data)

/-- Python `str.replace(pat, rep)` (all occurrences, left to right,
non-overlapping). -/
def replAll (pat rep : List Char) : Nat → List Char → List Char
  | _, [] => []
  | 0, l => l
  | fuel + 1, c :: rest =>
    if pat.isPrefixOf (c :: rest) then rep ++ replAll pat rep fuel ((c :: rest).drop pat.length)
    else c :: replAll pat rep fuel rest

def pyReplace (s pat rep : String) : String :=
  String.mk (replAll pat.data rep.data s.data.length s.data)

/-- Python `str.split(sep)` for a non-empty separator. -/
def splitSub (pat : List Char) : Nat → List Char → List (List Char)
  | _, [] => [[]]
  | 0, l => [l]
  | fuel + 1, c :: rest =>
    if pat.isPrefixOf (c :: rest) then [] :: splitSub pat fuel ((c :: rest).drop pat.length)
    else
      match splitSub pat fuel rest with
      | [] => [[c]]
      | g :: gs => (c :: g) :: gs

def pySplit (sep s : String) : List String :=
  (splitSub sep.data s.data.length s.data).map String.mk

/-- Python `str.isdigit` (ASCII digits). -/
def pyIsDigit (s : String) : Bool := !s.data.isEmpty && s.data.all Char.isDigit

def digitsToNat (l : List Char) : Nat := l.foldl (fun a c => 10 * a + (c.toNat - 48)) 0

/-- The scalar values the parser produces: Python int / float / bool /
None / str. Python floats are modelled by the exact rational value of the
decimal literal (the only floats the parser creates come from decimal
literals). -/
inductive Scalar where
  | int (n : Int)
  | float (q : ℚ)
  | bool (b : Bool)
  | none
  | str (s : String)
deriving DecidableEq, Repr

/-- Value of a decimal literal that passed the float test: exactly one
dot, all other characters digits. -/
def floatVal (s : String) : ℚ :=
  match splitCh '.' s.data with
  | [a, b] => (digitsToNat (a ++ b) : ℚ) / ((10 : ℚ) ^ b.length)
  | _ => 0

/-- Python `val[1:-1]`. -/
def drop1dropLast (s : String) : String := String.mk (s.data.drop 1).dropLast

/-- The per-token type-coercion cascade of `parse_action` (applied
identically in its positional and keyword branches):
`isdigit` → int; else `replace('.','',1).isdigit()` → float; else
`lower() == 'true'/'false'` → bool; else `lower() == 'none'` → None;
else strip a surrounding matching quote pair; else the literal text. -/
def coerceValue (val : String) : Scalar :=
  if pyIsDigit val then .int (digitsToNat val.data)
  else if pyIsDigit (pyReplaceFirst val "." "") then .float (floatVal val)
  else if pyLower val = "true" then .bool true
  else if pyLower val = "false" then .bool false
  else if pyLower val = "none" then .none
  else if (pyStartsWith "\"" val && (pyStartsWith "\"" (String.mk val.data.reverse))) ||
      (pyStartsWith "'" val && (pyStartsWith "'" (String.mk val.data.reverse))) then
    .str (drop1dropLast val)
  else .str val

/-- Python dict assignment `d[k] = v` on an insertion-ordered
association list: overwrite in place if the key exists, else append. -/
def dictInsert (k : String) (v : Scalar) : List (String × Scalar) → List (String × Scalar)
  | [] => [(k, v)]
  | (k', v') :: rest => if k' = k then (k, v) :: rest else (k', v') :: dictInsert k v rest

/-- Python `token.split('=', 1)`: text before the first `=` and after it.
Returns `Option.none` when the character does not occur. -/
def splitFirst (sep : Char) : List Char → Option (List Char × List Char)
  | [] => Option.none
  | c :: rest =>
    if c = sep then Option.some ([], rest)
    else (splitFirst sep rest).map (fun p => (c :: p.1, p.2))

/-! ## The shlex tokenizer

`parse_action` tokenizes the argument text with
`shlex.shlex(args_part, posix=True)` configured with
`whitespace = ','`, `whitespace_split = True`, `commenters = ''`
(defaults: `quotes = '\x27"'`, `escape = '\x5c'`, `escapedquotes = '"'`,
no punctuation chars). The state machine below is CPython's
`shlex.read_token` loop specialized to exactly that configuration, run to
end of input collecting every token. In posix mode quote characters are
consumed (removed from the token), a backslash escapes any character
outside quotes, escapes `"` and itself inside double quotes, and is
literal inside single quotes; an unclosed quote raises
`ValueError("No closing quotation")` and a trailing escape raises
`ValueError("No escaped character")`. -/

/-- shlex scanner state: between tokens (`' '`), inside a word (`'a'`),
inside single/double quotes, or just after an escape character met in
word context / inside double quotes. -/
inductive LexState where
  | sp
  | word
  | sq
  | dq
  | escWord
  | escDq
deriving DecidableEq, Repr

/-- One pass of CPython's posix `shlex` over the whole input.
`quoted` is the per-token "has passed through quotes" flag, `cur` the
token being accumulated, `acc` the tokens already emitted. -/
def shlexRun : LexState → Bool → List Char → List (List Char) → List Char →
    Except String (List (List Char))
  | .sp, quoted, cur, acc, [] =>
    if !quoted && cur.isEmpty then .ok acc else .ok (acc ++ [cur])
  | .sp, quoted, cur, acc, c :: rest =>
    if c = ',' then
      if !cur.isEmpty || quoted then shlexRun .sp false [] (acc ++ [cur]) rest
      else shlexRun .sp quoted cur acc rest
    else if c = '\\' then shlexRun .escWord quoted cur acc rest
    else if c = '\'' then shlexRun .sq quoted cur acc rest
    else if c = '"' then shlexRun .dq quoted cur acc rest
    else shlexRun .word quoted (cur ++ [c]) acc rest
  | .word, quoted, cur, acc, [] =>
    if !quoted && cur.isEmpty then .ok acc else .ok (acc ++ [cur])
  | .word, quoted, cur, acc, c :: rest =>
    if c = ',' then
      if !cur.isEmpty || quoted then shlexRun .sp false [] (acc ++ [cur]) rest
      else shlexRun .sp quoted cur acc rest
    else if c = '\'' then shlexRun .sq quoted cur acc rest
    else if c = '"' then shlexRun .dq quoted cur acc rest
    else if c = '\\' then shlexRun .escWord quoted cur acc rest
    else shlexRun .word quoted (cur ++ [c]) acc rest
  | .sq, _, _, _, [] => .error "No closing quotation"
  | .sq, _, cur, acc, c :: rest =>
    if c = '\'' then shlexRun .word true cur acc rest
    else shlexRun .sq true (cur ++ [c]) acc rest
  | .dq, _, _, _, [] => .error "No closing quotation"
  | .dq, _, cur, acc, c :: rest =>
    if c = '"' then shlexRun .word true cur acc rest
    else if c = '\\' then shlexRun .escDq true cur acc rest
    else shlexRun .dq true (cur ++ [c]) acc rest
  | .escWord, _, _, _, [] => .error "No escaped character"
  | .escWord, quoted, cur, acc, c :: rest => shlexRun .word quoted (cur ++ [c]) acc rest
  | .escDq, _, _, _, [] => .error "No escaped character"
  | .escDq, quoted, cur, acc, c :: rest =>
    if c ≠ '\\' && c ≠ '"' then shlexRun .dq quoted (cur ++ ['\\', c]) acc rest
    else shlexRun .dq quoted (cur ++ [c]) acc rest

/-- `list(shlex.shlex(s, posix=True))` with the configuration used by
`parse_action`; `.error` models the `ValueError` it can raise. -/
def shlexTokens (s : String) : Except String (List String) :=
  (shlexRun .sp false [] [] s.data).map (List.map String.mk)

/-! ## parse_action -/

/-- Outcome of `parse_action`: the failure triple `(None, None, None)`,
an uncaught `ValueError` escaping from the shlex tokenizer, or a parsed
call `(tool_name, args, kwargs)`. -/
inductive ParseOutcome where
  | null
  | raised (msg : String)
  | ok (toolName : String) (args : List Scalar) (kwargs : List (String × Scalar))
deriving DecidableEq, Repr

/-- The paren/quote scan of `parse_action` (its `while` loop): walk the
text after the opening paren with a nesting depth (starting at 1) and two
quote flags; a quote character toggles its flag only when the other quote
is closed; parens count only outside quotes. Returns the characters
strictly between the opening paren and the paren that brings the depth to
0, or `none` when the input ends first (`depth != 0`). -/
def scanArgs (inS inD : Bool) (depth : Nat) : List Char → Option (List Char)
  | [] => Option.none
  | c :: rest =>
    let inS' := if c = '\'' && !inD then !inS else inS
    let inD' := if c = '"' && !inS then !inD else inD
    if !inS' && !inD' && c = '(' then
      (scanArgs inS' inD' (depth + 1) rest).map (fun l => c :: l)
    else if !inS' && !inD' && c = ')' then
      if depth = 1 then Option.some []
      else (scanArgs inS' inD' (depth - 1) rest).map (fun l => c :: l)
    else (scanArgs inS' inD' depth rest).map (fun l => c :: l)

/-- The per-token branch body of `parse_action`: strip the token, split
at the first `=` into a keyword pair (coercing the value) or append the
whole token as a positional (coercing it). -/
def processToken (acc : List Scalar × List (String × Scalar)) (tok : String) :
    List Scalar × List (String × Scalar) :=
  let t := pyStrip tok
  if pyIn "=" t then
    match splitFirst '=' t.data with
    | Option.some (k, v) =>
      (acc.1, dictInsert (pyStrip (String.mk k)) (coerceValue (pyStrip (String.mk v))) acc.2)
    | Option.none => (acc.1, acc.2)
  else (acc.1 ++ [coerceValue t], acc.2)

/-- Python `action_text.find('(')`: index of the first `(`, `none` for
Python's `-1`. -/
def findParen : List Char → Option Nat
  | [] => Option.none
  | c :: rest => if c = '(' then Option.some 0 else (findParen rest).map (· + 1)

/-- The body of `parse_action` applied to the text after the `ACTION:`
marker (already stripped). Mirrors the source line by line, including the
`find('(') == -1` case (then Python's `action_text[:start_idx]` with
`start_idx = -1` drops the last character and the scan starts at index
0). -/
def parseActionText (action_text : String) : ParseOutcome :=
  if !pyIn "(" action_text && !pyIn ")" action_text then
    .ok (pyStrip action_text) [] []
  else
    let start := findParen action_text.data
    let tool_name :=
      match start with
      | Option.some i => pyStrip (String.mk (action_text.data.take i))
      | Option.none => pyStrip (String.mk action_text.data.dropLast)
    let scanned :=
      match start with
      | Option.some i => scanArgs false false 1 (action_text.data.drop (i + 1))
      | Option.none => scanArgs false false 1 action_text.data
    match scanned with
    | Option.none => .null
    | Option.some argsChars =>
      let args_part := pyStrip (String.mk argsChars)
      if args_part.data.isEmpty then .ok tool_name [] []
      else
        match shlexTokens args_part with
        | .error e => .raised e
        | .ok tokens =>
          let (args, kwargs) := tokens.foldl processToken ([], [])
          .ok tool_name args kwargs

/-- The line loop of `parse_action`: the first line that starts with
`ACTION:` is parsed (the marker removed by a first-occurrence replace,
the remainder stripped); with no such line the failure triple results. -/
def parseLines : List String → ParseOutcome
  | [] => .null
  | l :: ls =>
    if pyStartsWith "ACTION:" l then
      parseActionText (pyStrip (pyReplaceFirst l "ACTION:" ""))
    else parseLines ls

/-- `parse_action(text)`: strip the text, split it into lines, parse the
first `ACTION:` line. -/
def parse_action (text : String) : ParseOutcome :=
  parseLines (pySplitNL (pyStrip text))

/-! ## Tool registry and dispatcher

The concrete tool implementations (PostgreSQL access, SMTP, file writes)
are external collaborators; a registered tool is abstracted to its call
signature: scalars in, a string out, or a raised exception represented by
its message (`Except.error`). -/

/-- A registered tool callable: `(*args, **kwargs) -> str`, which may
raise (the `.error` carries `str(e)`). -/
def ToolImpl : Type := List Scalar → List (String × Scalar) → Except String String

/-- The `self.tools` mapping: an insertion-ordered name → callable map. -/
def Tools : Type := List (String × ToolImpl)

def lookupTool (tools : Tools) (name : String) : Option ToolImpl :=
  match tools with
  | [] => Option.none
  | (n, f) :: rest => if n = name then Option.some f else lookupTool rest name

/-- `AuditAgent.execute_tool`: unknown names produce an error string; a
callable's exception is caught and converted to an error string tagged
with the tool name and the exception message. Total — it never raises. -/
def execute_tool (tools : Tools) (tool_name : String) (args : List Scalar)
    (kwargs : List (String × Scalar)) : String :=
  match lookupTool tools tool_name with
  | Option.none => "Error: unknown tool '" ++ tool_name ++ "'"
  | Option.some f =>
    match f args kwargs with
    | .ok s => s
    | .error e => "Error executing " ++ tool_name ++ ": " ++ e

/-! ## Conversation loop -/

/-- A role-tagged chat message. -/
structure Message where
  role : String
  content : String
deriving DecidableEq, Repr

/-- One executed tool call as recorded in a step (`{"tool": ...,
"result": ...}`). -/
structure ToolCall where
  tool : String
  result : String
deriving DecidableEq, Repr

/-- One entry of the `steps` history (`{"thought": ..., "tools": ...}`). -/
structure StepRecord where
  thought : String
  tools : List ToolCall
deriving DecidableEq, Repr

/-- The JSON values the agent serializes (shape of `json.dumps`
output; the textual serialization itself is not modelled). -/
inductive JVal where
  | s (v : String)
  | n (v : Nat)
  | arr (l : List JVal)
  | obj (l : List (String × JVal))

def toolCallJson (tc : ToolCall) : JVal :=
  .obj [("tool", .s tc.tool), ("result", .s tc.result)]

def stepRecordJson (r : StepRecord) : JVal :=
  .obj [("thought", .s r.thought), ("tools", .arr (r.tools.map toolCallJson))]

/-- The per-step record printed in structured mode:
`{"type": "step", "step": step_num, "thought": thought, "tools": tool_calls}`. -/
def stepJsonVal (step : Nat) (thought : String) (tool_calls : List ToolCall) : JVal :=
  .obj [("type", .s "step"), ("step", .n step), ("thought", .s thought),
    ("tools", .arr (tool_calls.map toolCallJson))]

/-- The final record printed in structured mode on a final answer:
`{"type": "final", "thought": thought, "answer": final_part, "steps": steps}`. -/
def finalJsonVal (thought answer : String) (steps : List StepRecord) : JVal :=
  .obj [("type", .s "final"), ("thought", .s thought), ("answer", .s answer),
    ("steps", .arr (steps.map stepRecordJson))]

/-- The max-steps sentinel record (no `thought` key):
`{"type": "final", "answer": "Max steps reached.", "steps": steps}`. -/
def maxStepsJsonVal (steps : List StepRecord) : JVal :=
  .obj [("type", .s "final"), ("answer", .s "Max steps reached."),
    ("steps", .arr (steps.map stepRecordJson))]

/-- One printed line: a `STEP_JSON:`-prefixed JSON line, or a plain
terminal print (non-structured mode). -/
inductive OutEvent where
  | jsonLine (v : JVal)
  | plain (t : String)

/-- The `Thought:` extraction: first line whose stripped, lowercased text
starts with `thought:`; the text after the 8-character marker of the
stripped (original-case) line, stripped. Absent: `""`. -/
def findThought : List String → String
  | [] => ""
  | l :: ls =>
    if pyStartsWith "thought:" (pyLower (pyStrip l)) then
      pyStrip (String.mk ((pyStrip l).data.drop 8))
    else findThought ls

def extractThought (reply : String) : String := findThought (pySplitNL reply)

/-- The final-answer payload: text after the last `FINAL ANSWER:`,
stripped, scrubbed of the interactive-shell phrases `You: quit` and
`Goodbye!`, stripped again. -/
def extractFinal (reply : String) : String :=
  let p := pyStrip ((pySplit "FINAL ANSWER:" reply).getLastD "")
  pyStrip (pyReplace (pyReplace p "You: quit" "") "Goodbye!" "")

/-- The guard of the final-answer branch:
`"FINAL ANSWER:" in llm_reply and "ACTION:" not in llm_reply`. -/
def finalGuard (reply : String) : Bool :=
  pyIn "FINAL ANSWER:" reply && !(pyIn "ACTION:" reply)

/-- The action-line collection:
`[l for l in llm_reply.split('\n') if l.strip().startswith('ACTION:')]`. -/
def actionLines (reply : String) : List String :=
  (pySplitNL reply).filter (fun l => pyStartsWith "ACTION:" (pyStrip l))

def MAX_ACTIONS_PER_STEP : Nat := 5

/-- The action-execution loop of one step: walks the action lines with a
counter that the cap check reads before, and the increment after, each
line — a line counts against the cap whether or not it parses. A parsed
line with a truthy (non-empty) tool name is executed; its observation
string and tool-call record are collected in order. A `ValueError`
escaping `parse_action` aborts the run (`.error`). -/
def execActions (tools : Tools) : List String → Nat →
    Except String (List String × List ToolCall)
  | [], _ => .ok ([], [])
  | line :: rest, count =>
    if MAX_ACTIONS_PER_STEP ≤ count then .ok ([], [])
    else
      match parse_action line with
      | .raised e => .error e
      | .null => execActions tools rest (count + 1)
      | .ok tool_name args kwargs =>
        if tool_name = "" then execActions tools rest (count + 1)
        else
          let observation := execute_tool tools tool_name args kwargs
          match execActions tools rest (count + 1) with
          | .error e => .error e
          | .ok (os, tcs) =>
            .ok (("Tool: " ++ tool_name ++ "\nResult: " ++ observation) :: os,
              ({ tool := tool_name, result := observation } : ToolCall) :: tcs)

/-- The synthetic user turn feeding observations back. -/
def observationsMessage (observations : List String) : String :=
  "OBSERVATIONS:\n" ++ String.intercalate "\n\n" observations ++
    "\n\nBased on these observations, what is your next step? " ++
    "If done, provide FINAL ANSWER. Do NOT include ACTION lines if concluding."

/-- The corrective re-prompt used when a step yields no tool call. -/
def correctivePrompt : String :=
  "Please use ACTION: tool_name(arguments) or provide your FINAL ANSWER:"

/-- What one loop iteration does with the model reply. -/
inductive StepOut where
  | final (answer : String) (steps : List StepRecord) (output : List OutEvent)
    (messages : List Message)
  | next (messages : List Message) (steps : List StepRecord) (output : List OutEvent)
  | raisedE (e : String) (steps : List StepRecord) (output : List OutEvent)
    (messages : List Message)

/-- One iteration of the `for step_num in range(1, max_steps + 1)` body
of `AuditAgent.run`, given the model reply for this step. -/
def runStep (tools : Tools) (structured : Bool) (step_num : Nat) (reply : String)
    (messages : List Message) (steps : List StepRecord) (output : List OutEvent) :
    StepOut :=
  let thought := extractThought reply
  if finalGuard reply then
    let final_part := extractFinal reply
    let output :=
      if structured then output ++ [.jsonLine (finalJsonVal thought final_part steps)]
      else output ++ [.plain ("\nFINAL ANALYSIS:\n" ++ final_part ++ "\n"),
        .plain (String.mk (List.replicate 70 '='))]
    .final final_part steps output messages
  else
    match execActions tools (actionLines reply) 0 with
    | .error e => .raisedE e steps output messages
    | .ok (observations, tool_calls) =>
      let output :=
        if structured && !tool_calls.isEmpty then
          output ++ [.jsonLine (stepJsonVal step_num thought tool_calls)]
        else output
      let steps := steps ++ [{ thought := thought, tools := tool_calls }]
      let messages := messages ++ [{ role := "assistant", content := reply }]
      let messages :=
        if !tool_calls.isEmpty then
          messages ++ [{ role := "user", content := observationsMessage observations }]
        else
          messages ++ [{ role := "user", content := correctivePrompt }]
      .next messages steps output

/-- How `AuditAgent.run` ends: an explicit final answer (the returned
string), the max-steps fall-through (Python returns `None`), or an
uncaught exception. -/
inductive RunResult where
  | answer (s : String)
  | maxSteps
  | raised (e : String)
deriving DecidableEq, Repr

structure RunResultState where
  result : RunResult
  steps : List StepRecord
  output : List OutEvent
  messages : List Message

/-- The step loop of `AuditAgent.run`; `remaining` counts the loop
iterations still to run, `step_num` the 1-based index of the next one. -/
def runLoop (tools : Tools) (llm : List Message → String) (structured : Bool) :
    Nat → Nat → List Message → List StepRecord → List OutEvent → RunResultState
  | _, 0, messages, steps, output =>
    let output :=
      if structured then output ++ [.jsonLine (maxStepsJsonVal steps)] else output
    { result := .maxSteps, steps := steps, output := output, messages := messages }
  | step_num, r + 1, messages, steps, output =>
    match runStep tools structured step_num (llm messages) messages steps output with
    | .final a s o m => { result := .answer a, steps := s, output := o, messages := m }
    | .raisedE e s o m => { result := .raised e, steps := s, output := o, messages := m }
    | .next m s o => runLoop tools llm structured (step_num + 1) r m s o

/-- The system prompt of `AuditAgent.__init__` (its content never feeds
back into the control flow modelled here; it is the constant first
message of every run). -/
def system_prompt : String :=
  "You are an autonomous security analyst agent for AWB Bank's audit system.\n" ++
  "You have direct SQL read-only access to the audit database and must analyze the ENTIRE system, not just individual users.\n" ++
  "\n" ++
  "AVAILABLE TOOLS:\n" ++
  "\n" ++
  "SQL RETRIEVAL:\n" ++
  "- list_tables() - List all tables. Call this first if unsure what exists.\n" ++
  "- get_table_schema(table_name) - Get columns before writing any SQL.\n" ++
  "- query_postgres(query) - Execute a SELECT query. Always include LIMIT.\n" ++
  "- get_distinct_statuses() - Get valid status values from audit_events.\n" ++
  "\n" ++
  "ACTIONS (only use when genuinely warranted by data):\n" ++
  "- create_security_alert(user_id, severity, reason) - severity: LOW/MEDIUM/HIGH/CRITICAL\n" ++
  "- send_email_alert(recipient, user_id, subject, body_text) - recipient always \"aandadiasmaa@gmail.com\"\n" ++
  "- generate_report(user_id, analysis)\n" ++
  "- request_manual_review(user_id, urgency, reason)\n" ++
  "\n" ++
  "STRICT RULES:\n" ++
  "1. NEVER invent data. If a tool returns no rows, that IS the answer.\n" ++
  "2. NEVER output FINAL ANSWER in the same response as ACTION lines.\n" ++
  "3. ALWAYS verify user exists before any action: query_postgres(\"SELECT 1 FROM audit_events WHERE user_id='X' LIMIT 1\")\n" ++
  "4. NEVER repeat an action for the same user in one session.\n" ++
  "5. Valid statuses are: FAILURE, PENDING, SUCCESS. Never guess.\n" ++
  "6. NEVER guess column names. Always call get_table_schema() first.\n" ++
  "\n" ++
  "GLOBAL ANALYSIS APPROACH:\n" ++
  "When asked global questions like \"are there suspicious users\" or \"show security overview\":\n" ++
  "- Query ALL users, not just one. Use GROUP BY user_id.\n" ++
  "- Compute failure rates: COUNT(CASE WHEN status='FAILURE' THEN 1 END) / COUNT(*) per user.\n" ++
  "- Check for off-hours activity: EXTRACT(HOUR FROM timestamp) NOT BETWEEN 6 AND 22.\n" ++
  "- Find high event volume: users with event counts far above the average.\n" ++
  "- Check CRITICAL severity events across all users.\n" ++
  "- Look for sensitive event types: LOGIN_FAILED, DELETE, ADMIN, UPDATE patterns.\n" ++
  "- Compare each user to the global average using subqueries.\n" ++
  "\n" ++
  "REACT WORKFLOW - TWO TURNS, NEVER COMBINED:\n" ++
  "Turn 1: Write your Thought, then ACTION lines only. No FINAL ANSWER yet.\n" ++
  "Turn 2: Write your Thought, then FINAL ANSWER only. No ACTION lines.\n" ++
  "\n" ++
  "THOUGHT FORMAT:\n" ++
  "Always start with \"Thought:\" explaining what you are doing and why.\n" ++
  "Example:\n" ++
  "Thought: The user wants a global security overview. I will first check the schema, then query failure rates per user, then check for off-hours activity across all users.\n" ++
  "ACTION: get_table_schema(audit_events)\n" ++
  "ACTION: query_postgres(query=\"SELECT user_id, COUNT(*) as total, COUNT(CASE WHEN status='FAILURE' THEN 1 END) as failures FROM audit_events GROUP BY user_id ORDER BY failures DESC LIMIT 20\")\n" ++
  "\n" ++
  "Now begin. Always think globally first unless a specific user is mentioned."

/-- `AuditAgent.run(question, max_steps, structured)`: the model backend
`llm` abstracts `call_llm` (a function of the message list). -/
def run (tools : Tools) (llm : List Message → String) (question : String)
    (max_steps : Nat) (structured : Bool) : RunResultState :=
  runLoop tools llm structured 1 max_steps
    [{ role := "system", content := system_prompt },
     { role := "user", content := question }] [] []

/-! ## Observation helpers and concrete scenarios used by the claims -/

/-- The tool calls of a successful `execActions` result (none on the
exception path). -/
def okToolCalls : Except String (List String × List ToolCall) → List ToolCall
  | .ok (_, tcs) => tcs
  | .error _ => []

def isOkE {α : Type} : Except String α → Bool
  | .ok _ => true
  | .error _ => false

/-- An emitted event of the structured stream in one of the three record
shapes the agent serializes. -/
def ShapedEvent (e : OutEvent) : Prop :=
  (∃ k t c, e = .jsonLine (stepJsonVal k t c)) ∨
  (∃ t a s, e = .jsonLine (finalJsonVal t a s)) ∨
  (∃ s, e = .jsonLine (maxStepsJsonVal s))

/-- The quote-state transition shared by the paren scanner of
`parse_action` (per scanned character) and, on backslash-free text, by
the shlex tokenizer. -/
def quoteStep (p : Bool × Bool) (c : Char) : Bool × Bool :=
  (if c = '\'' && !p.2 then !p.1 else p.1, if c = '"' && !p.1 then !p.2 else p.2)

def quoteRun (p : Bool × Bool) (l : List Char) : Bool × Bool := l.foldl quoteStep p

/-- The quote state a shlex scanner state corresponds to; the escape
states (reachable only through a backslash) have none. -/
def lexQuotes : LexState → Option (Bool × Bool)
  | .sp => Option.some (false, false)
  | .word => Option.some (false, false)
  | .sq => Option.some (true, false)
  | .dq => Option.some (false, true)
  | .escWord => Option.none
  | .escDq => Option.none

/-- A character allowed in the "plain token" fragment of the action
grammar: alphanumeric, underscore or dot (covers tool names and the
unquoted scalar literals). -/
def plainChar (c : Char) : Bool := c.isAlphanum || c = '_' || c = '.'

/-- A nonempty token of plain characters. -/
def PlainTok (s : String) : Prop := s.data ≠ [] ∧ ∀ c ∈ s.data, plainChar c = true

/-- A reply with one well-formed action line and a final answer marker
(claim C1's scenario). -/
def replyBothMarkers : String := "Thought: x\nACTION: list_tables()\nFINAL ANSWER: done"

def toolsListTables : Tools := [("list_tables", fun _ _ => .ok "ok")]

/-- A reply with seven well-formed action lines (claim C6's scenario). -/
def replySevenActions : String :=
  "ACTION: t1()\nACTION: t2()\nACTION: t3()\nACTION: t4()\nACTION: t5()\n" ++
  "ACTION: t6()\nACTION: t7()"

def toolsSeven : Tools :=
  [("t1", fun _ _ => .ok "r1"), ("t2", fun _ _ => .ok "r2"), ("t3", fun _ _ => .ok "r3"),
   ("t4", fun _ _ => .ok "r4"), ("t5", fun _ _ => .ok "r5"), ("t6", fun _ _ => .ok "r6"),
   ("t7", fun _ _ => .ok "r7")]

/-- Five malformed action lines followed by a well-formed one (claim
C10's scenario). -/
def replyFiveMalformed : String :=
  "ACTION: bad(\nACTION: bad(\nACTION: bad(\nACTION: bad(\nACTION: bad(\nACTION: t1()"

/-- A model that answers with one action line, then concludes (the
end-to-end scenario of the spec). -/
def llmEndToEnd : List Message → String := fun ms =>
  if ms.length ≤ 2 then "Thought: check schema\nACTION: list_tables()"
  else "Thought: done\nFINAL ANSWER: No suspicious activity."

def toolsEndToEnd : Tools :=
  [("list_tables", fun _ _ => .ok "Available tables: audit_events")]

/-- A model whose reply's action line makes the shlex tokenizer raise
(claim C7's counterexample). -/
def llmRaising : List Message → String := fun _ => "ACTION: NAME(\"a\\\")"

/-- A model that never acts and never concludes. -/
def llmStalling : List Message → String := fun _ => "Thought: working"

def toolsRaisingTool : Tools := [("boom", fun _ _ => .error "kaboom")]

/-- A model that neither acts nor concludes (claim C9's no-tool-call
steps). -/
def llmChatter : List Message → String := fun _ => "hello"

/-- A reply containing both markers but no line that starts with
`ACTION:` (the marker appears mid-line only). -/
def replyMarkersNoActionLine : String := "FINAL ANSWER: use ACTION: now"

/-- The output accumulator carried by a step outcome. -/
def stepOutOutput : StepOut → List OutEvent
  | .final _ _ o _ => o
  | .next _ _ o => o
  | .raisedE _ _ o _ => o

/-! ## Generic lemmas -/

theorem data_mk (l : List Char) : (String.mk l).data = l := rfl

theorem pyStrip_mk (l : List Char) : pyStrip (String.mk l) = String.mk (stripList l) := rfl

theorem containsSub_nil_pat (t : List Char) : containsSub [] t = true := by
  cases t <;> simp [containsSub, List.isPrefixOf]

theorem containsSub_append_right (pat s t : List Char) (h : containsSub pat t = true) :
    containsSub pat (s ++ t) = true := by
  induction s with
  | nil => simpa using h
  | cons c cs ih => simp [containsSub, ih]

theorem containsSub_append_self (pat t : List Char) : containsSub pat (pat ++ t) = true := by
  cases pat with
  | nil => simpa using containsSub_nil_pat t
  | cons c p =>
    have : List.isPrefixOf (c :: p) ((c :: p) ++ t) = true := by
      simp [List.isPrefixOf_iff_prefix]
    simp_all [containsSub, List.cons_append]

/-- The step executor looks at no more than the per-step cap of action
lines: its result is unchanged by dropping all later lines. -/
theorem execActions_eq_take (tools : Tools) :
    ∀ (lines : List String) (count : Nat),
    execActions tools lines count =
      execActions tools (lines.take (MAX_ACTIONS_PER_STEP - count)) count := by
  intro lines
  induction lines with
  | nil => intro count; simp
  | cons line rest ih =>
    intro count
    by_cases h5 : MAX_ACTIONS_PER_STEP ≤ count
    · rw [Nat.sub_eq_zero_of_le h5]
      simp only [List.take_zero]
      simp [execActions, if_pos h5]
    · have hk : MAX_ACTIONS_PER_STEP - count = (MAX_ACTIONS_PER_STEP - (count + 1)) + 1 := by
        simp only [MAX_ACTIONS_PER_STEP] at h5 ⊢
        omega
      rw [hk, List.take_succ_cons]
      rw [execActions, execActions, if_neg h5, if_neg h5]
      cases hp : parse_action line with
      | raised e => rfl
      | null => exact ih (count + 1)
      | ok name args kwargs =>
        by_cases hn : name = ""
        · simp only [if_pos hn]
          exact ih (count + 1)
        · simp only [if_neg hn]
          rw [ih (count + 1)]

/-- The step executor produces at most `MAX_ACTIONS_PER_STEP - count`
tool calls when started at counter value `count`. -/
theorem execActions_calls_le (tools : Tools) :
    ∀ (lines : List String) (count : Nat),
    (okToolCalls (execActions tools lines count)).length ≤ MAX_ACTIONS_PER_STEP - count := by
  intro lines
  induction lines with
  | nil => intro count; simp [execActions, okToolCalls]
  | cons line rest ih =>
    intro count
    rw [execActions]
    by_cases h5 : MAX_ACTIONS_PER_STEP ≤ count
    · simp [if_pos h5, okToolCalls]
    · rw [if_neg h5]
      have hk : MAX_ACTIONS_PER_STEP - (count + 1) + 1 = MAX_ACTIONS_PER_STEP - count := by
        simp only [MAX_ACTIONS_PER_STEP] at h5 ⊢
        omega
      cases hp : parse_action line with
      | raised e => simp [okToolCalls]
      | null => exact le_trans (ih (count + 1)) (by omega)
      | ok name args kwargs =>
        by_cases hn : name = ""
        · simp only [if_pos hn]
          exact le_trans (ih (count + 1)) (by omega)
        · simp only [if_neg hn]
          rcases he : execActions tools rest (count + 1) with e | ⟨os, tcs⟩
          · simp [okToolCalls]
          · have hlen := ih (count + 1)
            rw [he] at hlen
            simp only [okToolCalls] at hlen ⊢
            simp only [List.length_cons]
            omega

/-! ## Plain-token lemmas

For tool names and unquoted scalar tokens built from alphanumeric
characters, underscores and dots, the parser's scanning phases act
transparently; the lemmas below establish that, character class by
character class. -/

theorem plainChar_spec {c : Char} (h : plainChar c = true) :
    pyWs c = false ∧ c ≠ '(' ∧ c ≠ ')' ∧ c ≠ '\'' ∧ c ≠ '"' ∧ c ≠ '\\' ∧ c ≠ ',' ∧
    c ≠ '\n' ∧ c ≠ '=' := by
  simp only [plainChar, Bool.or_eq_true, decide_eq_true_eq] at h
  rcases h with (h | h) | h
  · refine ⟨?_, ?_, ?_, ?_, ?_, ?_, ?_, ?_, ?_⟩
    · cases hb : pyWs c with
      | false => rfl
      | true =>
        exfalso
        simp only [pyWs, Bool.or_eq_true, decide_eq_true_eq] at hb
        rcases hb with ((((h1 | h1) | h1) | h1) | h1) | h1 <;> subst h1 <;>
          exact absurd h (by decide)
    all_goals (rintro rfl; exact absurd h (by decide))
  · subst h; decide
  · subst h; decide

theorem dropWhile_pyWs_head {l : List Char} (h : ∀ c, l.head? = Option.some c → pyWs c = false) :
    l.dropWhile pyWs = l := by
  cases l with
  | nil => rfl
  | cons a t => simp [List.dropWhile_cons, h a rfl]

theorem stripList_eq_self {l : List Char}
    (h1 : ∀ c, l.head? = Option.some c → pyWs c = false)
    (h2 : ∀ c, l.getLast? = Option.some c → pyWs c = false) : stripList l = l := by
  rw [stripList, dropWhile_pyWs_head h1, dropWhile_pyWs_head, List.reverse_reverse]
  intro c hc
  rw [List.head?_reverse] at hc
  exact h2 c hc

theorem stripList_plain {l : List Char} (h : ∀ c ∈ l, plainChar c = true) : stripList l = l := by
  refine stripList_eq_self (fun c hc => ?_) (fun c hc => ?_)
  · cases l with
    | nil => exact Option.noConfusion hc
    | cons a t =>
      have hac : a = c := by simpa using hc
      exact hac ▸ (plainChar_spec (h a (List.mem_cons_self a t))).1
  · have hc' : c ∈ l.getLast? := hc
    obtain ⟨hne, heq⟩ := List.mem_getLast?_eq_getLast hc'
    exact (plainChar_spec (h c (heq ▸ List.getLast_mem hne))).1

/-- The strip of a single leading space over non-whitespace-ended text. -/
theorem stripList_cons_space (l : List Char) : stripList (' ' :: l) = stripList l := by
  rw [stripList, stripList, List.dropWhile_cons]
  norm_num [pyWs]

theorem splitCh_no_sep {sep : Char} : ∀ {l : List Char}, sep ∉ l → splitCh sep l = [l]
  | [], _ => rfl
  | c :: rest, h => by
    have hc : c ≠ sep := fun e => h (e ▸ List.mem_cons_self c rest)
    have hr : sep ∉ rest := fun e => h (List.mem_cons_of_mem c e)
    rw [splitCh, splitCh_no_sep hr]
    simp [hc]

theorem containsSub_single_false {c : Char} : ∀ {l : List Char}, (∀ x ∈ l, x ≠ c) →
    containsSub [c] l = false
  | [], _ => rfl
  | x :: rest, h => by
    have hx : x ≠ c := h x (List.mem_cons_self x rest)
    rw [containsSub, containsSub_single_false (fun y hy => h y (List.mem_cons_of_mem x hy))]
    simp [List.isPrefixOf]
    exact fun e => absurd e.symm hx

theorem findParen_append {xs : List Char} (h : ∀ c ∈ xs, c ≠ '(') (ys : List Char) :
    findParen (xs ++ '(' :: ys) = Option.some xs.length := by
  induction xs with
  | nil => simp [findParen]
  | cons c cs ih =>
    have hc : c ≠ '(' := h c (List.mem_cons_self c cs)
    rw [List.cons_append, findParen, if_neg hc,
      ih (fun y hy => h y (List.mem_cons_of_mem c hy))]
    rfl

theorem splitFirst_append {k : List Char} (h : ∀ c ∈ k, c ≠ '=') (v : List Char) :
    splitFirst '=' (k ++ '=' :: v) = Option.some (k, v) := by
  induction k with
  | nil => simp [splitFirst]
  | cons c cs ih =>
    have hc : c ≠ '=' := h c (List.mem_cons_self c cs)
    rw [List.cons_append, splitFirst, if_neg hc,
      ih (fun y hy => h y (List.mem_cons_of_mem c hy))]
    rfl

/-- Characters that the paren/quote scanner passes through untouched. -/
def scanOrd (c : Char) : Prop := c ≠ '(' ∧ c ≠ ')' ∧ c ≠ '\'' ∧ c ≠ '"'

theorem scanArgs_passthrough : ∀ {l : List Char}, (∀ c ∈ l, scanOrd c) → ∀ (rest : List Char),
    scanArgs false false 1 (l ++ rest) = (scanArgs false false 1 rest).map (l ++ ·)
  | [], _, rest => by simp
  | c :: cs, h, rest => by
    obtain ⟨h1, h2, h3, h4⟩ := h c (List.mem_cons_self c cs)
    have ih := scanArgs_passthrough (fun y hy => h y (List.mem_cons_of_mem c hy)) rest
    rw [List.cons_append, scanArgs]
    simp [h1, h2, h3, h4, ih, Option.map_map, Function.comp]
    congr

/-- Characters the shlex tokenizer appends verbatim in word state. -/
def lexOrd (c : Char) : Prop := c ≠ ',' ∧ c ≠ '\'' ∧ c ≠ '"' ∧ c ≠ '\\'

theorem shlexRun_word_append : ∀ {l : List Char}, (∀ c ∈ l, lexOrd c) →
    ∀ (q : Bool) (cur : List Char) (acc : List (List Char)) (rest : List Char),
    shlexRun .word q cur acc (l ++ rest) = shlexRun .word q (cur ++ l) acc rest
  | [], _, q, cur, acc, rest => by simp
  | c :: cs, h, q, cur, acc, rest => by
    obtain ⟨h1, h2, h3, h4⟩ := h c (List.mem_cons_self c cs)
    rw [List.cons_append, shlexRun, if_neg h1, if_neg h2, if_neg h3, if_neg h4,
      shlexRun_word_append (fun y hy => h y (List.mem_cons_of_mem c hy))]
    rw [List.append_cons cur c cs]

theorem shlexRun_sp_start {c : Char} (hc : lexOrd c) (q : Bool) (cur : List Char)
    (acc : List (List Char)) (rest : List Char) :
    shlexRun .sp q cur acc (c :: rest) = shlexRun .word q (cur ++ [c]) acc rest := by
  obtain ⟨h1, h2, h3, h4⟩ := hc
  rw [shlexRun, if_neg h1, if_neg h4, if_neg h2, if_neg h3]

theorem shlexRun_word_comma (q : Bool) {cur : List Char} (h : cur ≠ [])
    (acc : List (List Char)) (rest : List Char) :
    shlexRun .word q cur acc (',' :: rest) = shlexRun .sp false [] (acc ++ [cur]) rest := by
  rw [shlexRun, if_pos rfl, if_pos]
  simp [h]

theorem shlexRun_word_nil (q : Bool) {cur : List Char} (h : cur ≠ [])
    (acc : List (List Char)) :
    shlexRun .word q cur acc [] = .ok (acc ++ [cur]) := by
  rw [shlexRun]
  simp [h]

theorem shlexRun_sp_plain {l : List Char} (hl : ∀ c ∈ l, lexOrd c) (hne : l ≠ [])
    (acc : List (List Char)) (rest : List Char) :
    shlexRun .sp false [] acc (l ++ rest) = shlexRun .word false l acc rest := by
  cases l with
  | nil => exact absurd rfl hne
  | cons c cs =>
    rw [List.cons_append, shlexRun_sp_start (hl c (List.mem_cons_self c cs)),
      shlexRun_word_append (fun y hy => hl y (List.mem_cons_of_mem c hy))]
    rfl

/-- Stripping the parser's own paren scan succeeds transparently on a
name-plus-parenthesized-arguments action text made of scan-ordinary
argument characters: the parse reduces to tokenizing the stripped
argument text. -/
theorem parseActionText_call (name : String) (hn : PlainTok name) (args : List Char)
    (hargs : ∀ c ∈ args, scanOrd c) :
    parseActionText (String.mk (name.data ++ '(' :: (args ++ [')']))) =
      (if (stripList args).isEmpty then .ok name [] []
       else match shlexTokens (String.mk (stripList args)) with
         | .error e => .raised e
         | .ok tokens =>
           let p := tokens.foldl processToken ([], [])
           .ok name p.1 p.2) := by
  have hparen : pyIn "(" (String.mk (name.data ++ '(' :: (args ++ [')']))) = true := by
    show containsSub "(".data (name.data ++ '(' :: (args ++ [')'])) = true
    exact containsSub_append_right _ _ _ (by simp [containsSub, List.isPrefixOf])
  have hnp : ∀ c ∈ name.data, c ≠ '(' := fun c hc => (plainChar_spec (hn.2 c hc)).2.1
  have hfind : findParen (name.data ++ '(' :: (args ++ [')'])) =
      Option.some name.data.length := findParen_append hnp _
  have htake : (name.data ++ '(' :: (args ++ [')'])).take name.data.length = name.data := by
    have := List.take_left name.data ('(' :: (args ++ [')']))
    simpa using this
  have hdrop : (name.data ++ '(' :: (args ++ [')'])).drop (name.data.length + 1) =
      args ++ [')'] := by
    have h1 : name.data ++ '(' :: (args ++ [')']) =
        (name.data ++ ['(']) ++ (args ++ [')']) := by simp
    have h2 := List.drop_left (name.data ++ ['(']) (args ++ [')'])
    rw [h1]
    simpa using h2
  have hscan : scanArgs false false 1 (args ++ [')']) = Option.some args := by
    rw [scanArgs_passthrough hargs]
    simp [scanArgs]
  have hname : pyStrip (String.mk name.data) = name := by
    show String.mk (stripList name.data) = name
    rw [stripList_plain hn.2]
  rw [parseActionText]
  simp only [hparen, Bool.not_true, Bool.false_and, Bool.false_eq_true, if_false]
  simp only [hfind]
  simp only [htake, hdrop, hscan, hname, pyStrip_mk, data_mk]

/-- A plain bare token parses as a zero-argument call. -/
theorem parseActionText_plain (name : String) (hn : PlainTok name) :
    parseActionText name = .ok name [] [] := by
  have h1 : pyIn "(" name = false := by
    show containsSub ['('] name.data = false
    exact containsSub_single_false (fun x hx => (plainChar_spec (hn.2 x hx)).2.1)
  have h2 : pyIn ")" name = false := by
    show containsSub [')'] name.data = false
    exact containsSub_single_false (fun x hx => (plainChar_spec (hn.2 x hx)).2.2.1)
  have hname : pyStrip name = name := by
    show String.mk (stripList name.data) = name
    rw [stripList_plain hn.2]
  rw [parseActionText, h1, h2]
  simp [hname]

/-- On a line `ACTION: <text>` whose text neither begins nor ends in
whitespace and holds no newline, `parse_action` reduces to the
action-text parser on the text. -/
theorem parse_action_marker (X : List Char) (hne : X ≠ [])
    (hhead : ∀ c, X.head? = Option.some c → pyWs c = false)
    (hlast : ∀ c, X.getLast? = Option.some c → pyWs c = false)
    (hnl : '
' ∉ X) :
    parse_action (String.mk ("ACTION: ".data ++ X)) = parseActionText (String.mk X) := by
  have hdata : (String.mk ("ACTION: ".data ++ X)).data = "ACTION: ".data ++ X := rfl
  have hstrip : stripList ("ACTION: ".data ++ X) = "ACTION: ".data ++ X := by
    refine stripList_eq_self (fun c hc => ?_) (fun c hc => ?_)
    · have : c = 'A' := by
        rw [show "ACTION: ".data ++ X = 'A' :: ("CTION: ".data ++ X) from rfl] at hc
        have := hc.symm
        simpa using this
      subst this
      decide
    · rw [List.getLast?_append_of_ne_nil _ hne] at hc
      exact hlast c hc
  have hnl2 : '
' ∉ "ACTION: ".data ++ X := by
    rw [List.mem_append]
    rintro (h | h)
    · exact absurd h (by decide)
    · exact hnl h
  have hpre : List.isPrefixOf "ACTION:".data ("ACTION: ".data ++ X) = true := by
    rw [show "ACTION: ".data = "ACTION:".data ++ [' '] from rfl, List.append_assoc]
    simp [List.isPrefixOf_iff_prefix]
  rw [parse_action]
  show parseLines (pySplitNL (String.mk (stripList ("ACTION: ".data ++ X)))) = _
  rw [hstrip]
  show parseLines ((splitCh '
' ("ACTION: ".data ++ X)).map String.mk) = _
  rw [splitCh_no_sep hnl2]
  show parseLines [String.mk ("ACTION: ".data ++ X)] = _
  rw [parseLines]
  rw [if_pos (show pyStartsWith "ACTION:" (String.mk ("ACTION: ".data ++ X)) = true from hpre)]
  have hrepl : pyReplaceFirst (String.mk ("ACTION: ".data ++ X)) "ACTION:" "" =
      String.mk (' ' :: X) := by
    show String.mk (replFirst "ACTION:".data [] ("ACTION: ".data ++ X).length
      ("ACTION: ".data ++ X)) = String.mk (' ' :: X)
    rw [show "ACTION: ".data ++ X = 'A' :: ("CTION: ".data ++ X) from rfl]
    rw [show ('A' :: ("CTION: ".data ++ X)).length = ("CTION: ".data ++ X).length + 1 from rfl]
    rw [replFirst]
    rw [if_pos (by simpa using hpre)]
    simp
  rw [hrepl]
  have hsp : pyStrip (String.mk (' ' :: X)) = String.mk X := by
    show String.mk (stripList (' ' :: X)) = String.mk X
    rw [stripList_cons_space, stripList_eq_self hhead hlast]
  rw [hsp]

theorem plain_scanOrd {c : Char} (h : plainChar c = true) : scanOrd c :=
  ⟨(plainChar_spec h).2.1, (plainChar_spec h).2.2.1, (plainChar_spec h).2.2.2.1,
   (plainChar_spec h).2.2.2.2.1⟩

theorem plain_lexOrd {c : Char} (h : plainChar c = true) : lexOrd c :=
  ⟨(plainChar_spec h).2.2.2.2.2.2.1, (plainChar_spec h).2.2.2.1,
   (plainChar_spec h).2.2.2.2.1, (plainChar_spec h).2.2.2.2.2.1⟩

/-- Tokenization of a three-token argument text `a, b, kv` (the shlex
machine splits at the two commas and keeps the post-comma spaces in the
tokens). -/
theorem shlexRun_argshape {a b kv : List Char} (ha : ∀ c ∈ a, lexOrd c) (ha0 : a ≠ [])
    (hb : ∀ c ∈ b, lexOrd c) (hkv : ∀ c ∈ kv, lexOrd c) :
    shlexRun .sp false [] [] (a ++ ',' :: ' ' :: (b ++ ',' :: ' ' :: kv)) =
      .ok [a, ' ' :: b, ' ' :: kv] := by
  have hspb : ∀ c ∈ ' ' :: b, lexOrd c := by
    intro c hc
    rcases List.mem_cons.mp hc with rfl | hc
    · exact ⟨by decide, by decide, by decide, by decide⟩
    · exact hb c hc
  have hspkv : ∀ c ∈ ' ' :: kv, lexOrd c := by
    intro c hc
    rcases List.mem_cons.mp hc with rfl | hc
    · exact ⟨by decide, by decide, by decide, by decide⟩
    · exact hkv c hc
  rw [shlexRun_sp_plain ha ha0, shlexRun_word_comma false ha0]
  rw [show (' ' :: (b ++ ',' :: ' ' :: kv)) = (' ' :: b) ++ (',' :: ' ' :: kv) from rfl]
  rw [shlexRun_sp_plain hspb (List.cons_ne_nil _ _),
    shlexRun_word_comma false (List.cons_ne_nil _ _)]
  rw [show (' ' :: kv) = (' ' :: kv) ++ ([] : List Char) by simp]
  rw [shlexRun_sp_plain hspkv (List.cons_ne_nil _ _),
    shlexRun_word_nil false (List.cons_ne_nil _ _)]
  simp

/-- Strip is the identity on a plain token (stated through `pyStrip` and
structure eta). -/
theorem pyStrip_plain (s : String) (h : PlainTok s) : pyStrip (String.mk s.data) = s := by
  rw [pyStrip_mk, stripList_plain h.2]

theorem processToken_positional (acc : List Scalar × List (String × Scalar)) (s : String)
    (h : PlainTok s) :
    processToken acc (String.mk s.data) = (acc.1 ++ [coerceValue s], acc.2) := by
  have hs := pyStrip_plain s h
  have heq : pyIn "=" s = false :=
    containsSub_single_false (fun x hx => (plainChar_spec (h.2 x hx)).2.2.2.2.2.2.2.2)
  rw [processToken, hs, heq]
  simp

theorem processToken_positional_space (acc : List Scalar × List (String × Scalar)) (s : String)
    (h : PlainTok s) :
    processToken acc (String.mk (' ' :: s.data)) = (acc.1 ++ [coerceValue s], acc.2) := by
  have hs : pyStrip (String.mk (' ' :: s.data)) = s := by
    rw [pyStrip_mk, stripList_cons_space, stripList_plain h.2]
  have heq : pyIn "=" s = false :=
    containsSub_single_false (fun x hx => (plainChar_spec (h.2 x hx)).2.2.2.2.2.2.2.2)
  rw [processToken, hs, heq]
  simp

theorem processToken_keyword (acc : List Scalar × List (String × Scalar)) (k v : String)
    (hk : PlainTok k) (hv : PlainTok v) :
    processToken acc (String.mk (' ' :: (k.data ++ '=' :: v.data))) =
      (acc.1, dictInsert k (coerceValue v) acc.2) := by
  have hstrip : pyStrip (String.mk (' ' :: (k.data ++ '=' :: v.data))) =
      String.mk (k.data ++ '=' :: v.data) := by
    rw [pyStrip_mk, stripList_cons_space]
    congr 1
    refine stripList_eq_self (fun c hc => ?_) (fun c hc => ?_)
    · rcases hkd : k.data with _ | ⟨x, xs⟩
      · exact absurd hkd hk.1
      · rw [hkd, List.cons_append, List.head?_cons, Option.some_inj] at hc
        exact hc ▸ (plainChar_spec (hk.2 x (by rw [hkd]; exact List.mem_cons_self x xs))).1
    · rw [List.getLast?_append_of_ne_nil _ (List.cons_ne_nil _ _),
        show ('=' :: v.data) = ['='] ++ v.data from rfl,
        List.getLast?_append_of_ne_nil _ hv.1] at hc
      have hc' : c ∈ v.data.getLast? := hc
      obtain ⟨hne, heq⟩ := List.mem_getLast?_eq_getLast hc'
      exact (plainChar_spec (hv.2 c (heq ▸ List.getLast_mem hne))).1
  have hin : pyIn "=" (String.mk (k.data ++ '=' :: v.data)) = true := by
    show containsSub ['='] (k.data ++ '=' :: v.data) = true
    exact containsSub_append_right _ _ _ (by simp [containsSub, List.isPrefixOf])
  have hsplit : splitFirst '=' (k.data ++ '=' :: v.data) = Option.some (k.data, v.data) :=
    splitFirst_append (fun x hx => (plainChar_spec (hk.2 x hx)).2.2.2.2.2.2.2.2) v.data
  rw [processToken, hstrip, hin]
  simp only [if_true, data_mk, hsplit, pyStrip_plain k hk, pyStrip_plain v hv]

theorem head?_append_plain {l : List Char} (hl : ∀ c ∈ l, plainChar c = true)
    (hne : l ≠ []) (rest : List Char) :
    ∀ c, (l ++ rest).head? = Option.some c → pyWs c = false := by
  cases l with
  | nil => exact absurd rfl hne
  | cons x xs =>
    intro c hc
    rw [List.cons_append, List.head?_cons, Option.some_inj] at hc
    exact hc ▸ (plainChar_spec (hl x (List.mem_cons_self x xs))).1

theorem getLast?_plain_tail {l : List Char} (hl : ∀ c ∈ l, plainChar c = true)
    (hne : l ≠ []) (pre : List Char) :
    ∀ c, (pre ++ l).getLast? = Option.some c → pyWs c = false := by
  intro c hc
  rw [List.getLast?_append_of_ne_nil _ hne] at hc
  have hc' : c ∈ l.getLast? := hc
  obtain ⟨h0, heq⟩ := List.mem_getLast?_eq_getLast hc'
  exact (plainChar_spec (hl c (heq ▸ List.getLast_mem h0))).1

/-- A well-formed call line over plain tokens parses to the tool name,
the positional arguments in order, and the keyword pair, each scalar
going through the coercion cascade. -/
theorem parse_plain_call (name a b k v : String)
    (hn : PlainTok name) (ha : PlainTok a) (hb : PlainTok b)
    (hk : PlainTok k) (hv : PlainTok v) :
    parse_action ("ACTION: " ++ name ++ "(" ++ a ++ ", " ++ b ++ ", " ++ k ++ "=" ++ v ++ ")") =
      .ok name [coerceValue a, coerceValue b] [(k, coerceValue v)] := by
  set ARGS : List Char :=
    a.data ++ ',' :: ' ' :: (b.data ++ ',' :: ' ' :: (k.data ++ '=' :: v.data)) with hARGS
  have hdata : ("ACTION: " ++ name ++ "(" ++ a ++ ", " ++ b ++ ", " ++ k ++ "=" ++ v ++ ")").data =
      "ACTION: ".data ++ (name.data ++ '(' :: (ARGS ++ [')'])) := by
    rw [hARGS]
    simp [String.data_append, show ("(" : String).data = ['('] from rfl,
      show (", " : String).data = [',', ' '] from rfl,
      show ("=" : String).data = ['='] from rfl,
      show (")" : String).data = [')'] from rfl]
  have ht : ("ACTION: " ++ name ++ "(" ++ a ++ ", " ++ b ++ ", " ++ k ++ "=" ++ v ++ ")") =
      String.mk ("ACTION: ".data ++ (name.data ++ '(' :: (ARGS ++ [')']))) :=
    congrArg String.mk hdata
  rw [ht]
  have hXeq : name.data ++ '(' :: (ARGS ++ [')']) = (name.data ++ '(' :: ARGS) ++ [')'] := by
    simp
  have hXne : name.data ++ '(' :: (ARGS ++ [')']) ≠ [] := by
    rw [hXeq]
    exact fun h => by simpa using congrArg List.length h
  have hXhead : ∀ c, (name.data ++ '(' :: (ARGS ++ [')'])).head? = Option.some c →
      pyWs c = false := head?_append_plain hn.2 hn.1 _
  have hXlast : ∀ c, (name.data ++ '(' :: (ARGS ++ [')'])).getLast? = Option.some c →
      pyWs c = false := by
    intro c hc
    rw [hXeq, List.getLast?_concat] at hc
    have : c = ')' := by simpa using hc.symm
    subst this
    decide
  have hXnl : '\n' ∉ name.data ++ '(' :: (ARGS ++ [')']) := by
    intro h
    rw [hARGS] at h
    simp only [List.mem_append, List.mem_cons] at h
    rcases h with h | h | h
    · exact (plainChar_spec (hn.2 _ h)).2.2.2.2.2.2.2.1 rfl
    · exact absurd h (by decide)
    rcases h with (h | h | h | h) | h
    · exact (plainChar_spec (ha.2 _ h)).2.2.2.2.2.2.2.1 rfl
    · exact absurd h (by decide)
    · exact absurd h (by decide)
    · rcases h with h | h | h | h
      · exact (plainChar_spec (hb.2 _ h)).2.2.2.2.2.2.2.1 rfl
      · exact absurd h (by decide)
      · exact absurd h (by decide)
      · rcases h with h | h | h
        · exact (plainChar_spec (hk.2 _ h)).2.2.2.2.2.2.2.1 rfl
        · exact absurd h (by decide)
        · exact (plainChar_spec (hv.2 _ h)).2.2.2.2.2.2.2.1 rfl
    · exact absurd h (by decide)
  rw [parse_action_marker _ hXne hXhead hXlast hXnl]
  have hargsOrd : ∀ c ∈ ARGS, scanOrd c := by
    intro c hc
    rw [hARGS] at hc
    simp only [List.mem_append, List.mem_cons] at hc
    rcases hc with hc | hc | hc | hc | hc | hc | hc | hc | hc
    · exact plain_scanOrd (ha.2 _ hc)
    · subst hc; exact ⟨by decide, by decide, by decide, by decide⟩
    · subst hc; exact ⟨by decide, by decide, by decide, by decide⟩
    · exact plain_scanOrd (hb.2 _ hc)
    · subst hc; exact ⟨by decide, by decide, by decide, by decide⟩
    · subst hc; exact ⟨by decide, by decide, by decide, by decide⟩
    · exact plain_scanOrd (hk.2 _ hc)
    · subst hc; exact ⟨by decide, by decide, by decide, by decide⟩
    · exact plain_scanOrd (hv.2 _ hc)
  rw [parseActionText_call name hn ARGS hargsOrd]
  have hstrip : stripList ARGS = ARGS := by
    refine stripList_eq_self (head?_append_plain ha.2 ha.1 _) (fun c hc => ?_)
    rw [hARGS,
      show (a.data ++ ',' :: ' ' :: (b.data ++ ',' :: ' ' :: (k.data ++ '=' :: v.data))) =
        (a.data ++ ',' :: ' ' :: (b.data ++ ',' :: ' ' :: (k.data ++ ['=']))) ++ v.data by simp] at hc
    exact getLast?_plain_tail hv.2 hv.1 _ c hc
  rw [hstrip]
  have hnotempty : ARGS.isEmpty = false := by
    rw [hARGS]
    rcases hda : a.data with _ | ⟨x, xs⟩
    · exact absurd hda ha.1
    · rfl
  rw [hnotempty]
  simp only [Bool.false_eq_true, if_false]
  have hlexa : ∀ c ∈ a.data, lexOrd c := fun c hc => plain_lexOrd (ha.2 c hc)
  have hlexb : ∀ c ∈ b.data, lexOrd c := fun c hc => plain_lexOrd (hb.2 c hc)
  have hlexkv : ∀ c ∈ k.data ++ '=' :: v.data, lexOrd c := by
    intro c hc
    rcases List.mem_append.mp hc with hc | hc
    · exact plain_lexOrd (hk.2 c hc)
    · rcases List.mem_cons.mp hc with rfl | hc
      · exact ⟨by decide, by decide, by decide, by decide⟩
      · exact plain_lexOrd (hv.2 c hc)
  have htok : shlexTokens (String.mk ARGS) = .ok
      [String.mk a.data, String.mk (' ' :: b.data),
       String.mk (' ' :: (k.data ++ '=' :: v.data))] := by
    show (shlexRun .sp false [] [] ARGS).map _ = _
    rw [hARGS, shlexRun_argshape hlexa ha.1 hlexb hlexkv]
    rfl
  rw [htok]
  simp only [List.foldl]
  rw [processToken_positional _ a ha, processToken_positional_space _ b hb,
    processToken_keyword _ k v hk hv]
  simp [dictInsert]

/-- A zero-argument call `NAME()` over a plain name parses to
`(NAME, [], {})`. -/
theorem parse_plain_zeroarg (name : String) (hn : PlainTok name) :
    parse_action ("ACTION: " ++ name ++ "()") = .ok name [] [] := by
  have hdata : ("ACTION: " ++ name ++ "()").data =
      "ACTION: ".data ++ (name.data ++ '(' :: (([] : List Char) ++ [')'])) := by
    simp [String.data_append, show ("()" : String).data = ['(', ')'] from rfl]
  have ht : ("ACTION: " ++ name ++ "()") =
      String.mk ("ACTION: ".data ++ (name.data ++ '(' :: (([] : List Char) ++ [')']))) :=
    congrArg String.mk hdata
  rw [ht]
  have hXeq : name.data ++ '(' :: (([] : List Char) ++ [')']) =
      (name.data ++ ['(']) ++ [')'] := by simp
  have hXne : name.data ++ '(' :: (([] : List Char) ++ [')']) ≠ [] := by
    rw [hXeq]
    exact fun h => by simpa using congrArg List.length h
  have hXlast : ∀ c, (name.data ++ '(' :: (([] : List Char) ++ [')'])).getLast? =
      Option.some c → pyWs c = false := by
    intro c hc
    rw [hXeq, List.getLast?_concat] at hc
    have : c = ')' := by simpa using hc.symm
    subst this
    decide
  have hXnl : '\n' ∉ name.data ++ '(' :: (([] : List Char) ++ [')']) := by
    intro h
    simp only [List.mem_append, List.mem_cons] at h
    rcases h with h | h | h | h
    · exact (plainChar_spec (hn.2 _ h)).2.2.2.2.2.2.2.1 rfl
    · exact absurd h (by decide)
    · exact absurd h (by decide)
    · rcases h with h | h
      · exact absurd h (by decide)
      · exact absurd h (List.not_mem_nil _)
  rw [parse_action_marker _ hXne (head?_append_plain hn.2 hn.1 _) hXlast hXnl]
  rw [parseActionText_call name hn [] (fun c hc => absurd hc (List.not_mem_nil c))]
  rfl

theorem parse_plain_bare (name : String) (hn : PlainTok name) :
    parse_action ("ACTION: " ++ name) = .ok name [] [] := by
  have ht : ("ACTION: " ++ name) = String.mk ("ACTION: ".data ++ name.data) :=
    congrArg String.mk (String.data_append _ _)
  rw [ht]
  have hhead : ∀ c, name.data.head? = Option.some c → pyWs c = false := by
    intro c hc
    cases hname : name.data with
    | nil => rw [hname] at hc; exact Option.noConfusion hc
    | cons x xs =>
      rw [hname, List.head?_cons, Option.some_inj] at hc
      exact hc ▸ (plainChar_spec (hn.2 x (by rw [hname]; exact List.mem_cons_self x xs))).1
  have hlast : ∀ c, name.data.getLast? = Option.some c → pyWs c = false :=
    fun c hc => getLast?_plain_tail hn.2 hn.1 [] c hc
  have hnl : '\n' ∉ name.data := fun h => (plainChar_spec (hn.2 _ h)).2.2.2.2.2.2.2.1 rfl
  rw [parse_action_marker _ hn.1 hhead hlast hnl]
  rw [show String.mk name.data = name from rfl]
  exact parseActionText_plain name hn

/-- C2: for well-formed single-line calls `ACTION: NAME(a, b, k=v)` over
plain tokens, parse_action returns the tool name, the positionals
`[a, b]` in textual order and the keyword mapping `{k: v}` with each
scalar coerced by the cascade; a zero-arg call `NAME()` and a bare
`NAME` both return `(NAME, [], {})`; and the coercions behave as the
spec's examples state: `42` to integer 42, `3.5` to float 3.5, `true` to
boolean true, `none` to null, `'x,y'` to the string `x,y` even though it
contains a comma. -/
theorem C2_wellformed_calls (name a b k v : String)
    (hn : PlainTok name) (ha : PlainTok a) (hb : PlainTok b)
    (hk : PlainTok k) (hv : PlainTok v) :
    (parse_action ("ACTION: " ++ name ++ "(" ++ a ++ ", " ++ b ++ ", " ++ k ++ "=" ++ v ++ ")") =
      .ok name [coerceValue a, coerceValue b] [(k, coerceValue v)]) ∧
    parse_action ("ACTION: " ++ name ++ "()") = .ok name [] [] ∧
    parse_action ("ACTION: " ++ name) = .ok name [] [] ∧
    parse_action "ACTION: NAME(42, 3.5, true, none, 'x,y', k=v)" =
      .ok "NAME" [.int 42, .float ((7 : ℚ) / 2), .bool true, Scalar.none, .str "x,y"]
        [("k", .str "v")] :=
  ⟨parse_plain_call name a b k v hn ha hb hk hv, parse_plain_zeroarg name hn,
   parse_plain_bare name hn, by
    have h1 : parse_action "ACTION: NAME(42, 3.5, true, none, 'x,y', k=v)" =
        .ok "NAME" [.int 42, .float (floatVal "3.5"), .bool true, Scalar.none, .str "x,y"]
          [("k", .str "v")] := by rfl
    have h2 : floatVal "3.5" = (7 : ℚ) / 2 := by
      show ((digitsToNat ['3', '5'] : ℚ)) / ((10 : ℚ) ^ (['5'].length)) = (7 : ℚ) / 2
      norm_num [digitsToNat, List.foldl, show '3'.toNat = 51 from rfl,
        show '5'.toNat = 53 from rfl]
    rw [h1, h2]⟩

/-- Witness for C2 at the spec's own example tokens. -/
theorem C2_wellformed_calls_witness :
    (parse_action ("ACTION: " ++ "NAME" ++ "(" ++ "42" ++ ", " ++ "3.5" ++ ", " ++ "k" ++
        "=" ++ "v" ++ ")") =
      .ok "NAME" [coerceValue "42", coerceValue "3.5"] [("k", coerceValue "v")]) ∧
    parse_action ("ACTION: " ++ "NAME" ++ "()") = .ok "NAME" [] [] ∧
    parse_action ("ACTION: " ++ "NAME") = .ok "NAME" [] [] :=
  have h := C2_wellformed_calls "NAME" "42" "3.5" "k" "v"
    (by constructor <;> decide) (by constructor <;> decide) (by constructor <;> decide)
    (by constructor <;> decide) (by constructor <;> decide)
  ⟨h.1, h.2.1, h.2.2.1⟩

/-- Python dict assignment: looking up the assigned key yields the
assigned value. -/
theorem dictInsert_lookup (key : String) (w : Scalar) :
    ∀ m, ((dictInsert key w m).lookup key) = Option.some w := by
  intro m
  induction m with
  | nil => simp [dictInsert, List.lookup]
  | cons p rest ih =>
    obtain ⟨k', v'⟩ := p
    rw [dictInsert]
    by_cases h : k' = key
    · subst h
      simp [List.lookup]
    · rw [if_neg h]
      simp [List.lookup, ih, beq_eq_false_iff_ne.mpr (Ne.symm h)]

/-- Python dict assignment: a later assignment to the same key
overwrites the earlier one with no error (last occurrence wins). -/
theorem dictInsert_last_wins (key : String) (w1 w2 : Scalar) :
    ∀ m, dictInsert key w2 (dictInsert key w1 m) = dictInsert key w2 m := by
  intro m
  induction m with
  | nil => simp [dictInsert]
  | cons p rest ih =>
    obtain ⟨k', v'⟩ := p
    rw [dictInsert]
    by_cases h : k' = key
    · subst h
      simp [dictInsert]
    · rw [if_neg h, dictInsert, if_neg h, dictInsert, if_neg h, ih]

/-! ## Backslash-free inputs never make the tokenizer raise

The paren/quote scanner of `parse_action` and the shlex tokenizer track
quotes by the same rules as long as no backslash is involved (escape
processing exists only in the tokenizer); the lemmas below show that the
argument text the scanner accepts is quote-balanced, and that the
tokenizer never errors on backslash-free quote-balanced input. -/

/- quoteRun basics -/
theorem quoteRun_cons (p : Bool × Bool) (c : Char) (l : List Char) :
    quoteRun p (c :: l) = quoteRun (quoteStep p c) l := rfl

theorem quoteRun_append (p : Bool × Bool) (l1 l2 : List Char) :
    quoteRun p (l1 ++ l2) = quoteRun (quoteRun p l1) l2 :=
  List.foldl_append _ _ _ _

theorem pyWs_not_quote {c : Char} (h : pyWs c = true) : c ≠ '\'' ∧ c ≠ '"' := by
  simp only [pyWs, Bool.or_eq_true, decide_eq_true_eq] at h
  rcases h with ((((h | h) | h) | h) | h) | h <;> subst h <;> exact ⟨by decide, by decide⟩

theorem quoteStep_ws {p : Bool × Bool} {c : Char} (h : pyWs c = true) : quoteStep p c = p := by
  obtain ⟨h1, h2⟩ := pyWs_not_quote h
  simp [quoteStep, h1, h2]

theorem quoteRun_ws {w : List Char} (h : ∀ c ∈ w, pyWs c = true) (p : Bool × Bool) :
    quoteRun p w = p := by
  induction w generalizing p with
  | nil => rfl
  | cons c cs ih =>
    rw [quoteRun_cons, quoteStep_ws (h c (List.mem_cons_self c cs))]
    exact ih (fun y hy => h y (List.mem_cons_of_mem c hy)) p

theorem quoteRun_stripList {l : List Char} (h : quoteRun (false, false) l = (false, false)) :
    quoteRun (false, false) (stripList l) = (false, false) := by
  have hm : quoteRun (false, false) (l.dropWhile pyWs) = (false, false) := by
    have hsplit : l.takeWhile pyWs ++ l.dropWhile pyWs = l :=
      List.takeWhile_append_dropWhile pyWs l
    have := quoteRun_append (false, false) (l.takeWhile pyWs) (l.dropWhile pyWs)
    rw [hsplit, h] at this
    rw [quoteRun_ws (fun c hc => List.mem_takeWhile_imp hc)] at this
    exact this.symm
  set m := l.dropWhile pyWs with hm'
  have hdecomp : m = stripList l ++ (m.reverse.takeWhile pyWs).reverse := by
    rw [stripList, ← hm']
    conv_lhs => rw [← List.reverse_reverse m,
      ← List.takeWhile_append_dropWhile pyWs m.reverse]
    rw [List.reverse_append]
  have hws : ∀ c ∈ (m.reverse.takeWhile pyWs).reverse, pyWs c = true := by
    intro c hc
    rw [List.mem_reverse] at hc
    exact List.mem_takeWhile_imp hc
  rw [hdecomp, quoteRun_append] at hm
  rw [quoteRun_ws hws] at hm
  exact hm



theorem scanArgs_quotes : ∀ (l : List Char) (inS inD : Bool) (d : Nat) (out : List Char),
    scanArgs inS inD d l = Option.some out → quoteRun (inS, inD) out = (false, false) := by
  intro l
  induction l with
  | nil => intro inS inD d out h; exact absurd h (by simp [scanArgs])
  | cons c rest ih =>
    intro inS inD d out h
    rw [scanArgs] at h
    by_cases hb1 : (!(if c = '\'' && !inD then !inS else inS) &&
        !(if c = '"' && !inS then !inD else inD)) && c = '('
    · rw [if_pos hb1] at h
      obtain ⟨out', hout', rfl⟩ := Option.map_eq_some'.mp h
      rw [quoteRun_cons]
      exact ih _ _ _ _ hout'
    · rw [if_neg hb1] at h
      by_cases hb2 : (!(if c = '\'' && !inD then !inS else inS) &&
          !(if c = '"' && !inS then !inD else inD)) && c = ')'
      · rw [if_pos hb2] at h
        by_cases hd : d = 1
        · rw [if_pos hd] at h
          have hout : out = [] := by simpa using h.symm
          subst hout
          simp only [Bool.and_eq_true, Bool.not_eq_true', decide_eq_true_eq] at hb2
          obtain ⟨⟨hS, hD⟩, hcp⟩ := hb2
          subst hcp
          have hS' : inS = false := by
            rw [if_neg (fun hcontra => absurd hcontra.1 (by decide))] at hS
            exact hS
          have hD' : inD = false := by
            rw [if_neg (fun hcontra => absurd hcontra.1 (by decide))] at hD
            exact hD
          rw [hS', hD']
          rfl
        · rw [if_neg hd] at h
          obtain ⟨out', hout', rfl⟩ := Option.map_eq_some'.mp h
          rw [quoteRun_cons]
          exact ih _ _ _ _ hout'
      · rw [if_neg hb2] at h
        obtain ⟨out', hout', rfl⟩ := Option.map_eq_some'.mp h
        rw [quoteRun_cons]
        exact ih _ _ _ _ hout'



theorem shlexRun_end_ok (q : Bool) (cur : List Char) (acc : List (List Char)) :
    (∃ r, shlexRun .sp q cur acc [] = .ok r) ∧ (∃ r, shlexRun .word q cur acc [] = .ok r) := by
  constructor <;>
  · by_cases hc : !q && cur.isEmpty
    · exact ⟨acc, by rw [shlexRun, if_pos hc]⟩
    · exact ⟨acc ++ [cur], by rw [shlexRun, if_neg hc]⟩

theorem shlexRun_safe : ∀ (l : List Char), (∀ c ∈ l, c ≠ '\\') →
    ∀ (st : LexState) (p : Bool × Bool), lexQuotes st = Option.some p →
    quoteRun p l = (false, false) →
    ∀ (q : Bool) (cur : List Char) (acc : List (List Char)),
    ∃ r, shlexRun st q cur acc l = .ok r := by
  intro l
  induction l with
  | nil =>
    intro _ st p hst hq q cur acc
    have hp : p = (false, false) := hq
    subst hp
    cases st with
    | sp => exact (shlexRun_end_ok q cur acc).1
    | word => exact (shlexRun_end_ok q cur acc).2
    | sq => exact absurd hst (by simp [lexQuotes])
    | dq => exact absurd hst (by simp [lexQuotes])
    | escWord => exact Option.noConfusion hst
    | escDq => exact Option.noConfusion hst
  | cons c rest ih =>
    intro hnb st p hst hq q cur acc
    have hc : c ≠ '\\' := hnb c (List.mem_cons_self c rest)
    have hnb' : ∀ x ∈ rest, x ≠ '\\' := fun x hx => hnb x (List.mem_cons_of_mem c hx)
    rw [quoteRun_cons] at hq
    cases st with
    | sp =>
      have hp : p = (false, false) := by simpa [lexQuotes] using hst.symm
      subst hp
      rw [shlexRun]
      by_cases h1 : c = ','
      · subst h1
        rw [show quoteStep (false, false) ',' = (false, false) from by decide] at hq
        by_cases h2 : !cur.isEmpty || q
        · rw [if_pos rfl, if_pos h2]
          exact ih hnb' .sp (false, false) rfl hq false [] (acc ++ [cur])
        · rw [if_pos rfl, if_neg h2]
          exact ih hnb' .sp (false, false) rfl hq q cur acc
      · rw [if_neg h1, if_neg hc]
        by_cases h3 : c = '\''
        · subst h3
          rw [show quoteStep (false, false) '\'' = (true, false) from by decide] at hq
          rw [if_pos rfl]
          exact ih hnb' .sq (true, false) rfl hq q cur acc
        · rw [if_neg h3]
          by_cases h4 : c = '"'
          · subst h4
            rw [show quoteStep (false, false) '"' = (false, true) from by decide] at hq
            rw [if_pos rfl]
            exact ih hnb' .dq (false, true) rfl hq q cur acc
          · rw [if_neg h4]
            rw [show quoteStep (false, false) c = (false, false) from by
              simp [quoteStep, h3, h4]] at hq
            exact ih hnb' .word (false, false) rfl hq q (cur ++ [c]) acc
    | word =>
      have hp : p = (false, false) := by simpa [lexQuotes] using hst.symm
      subst hp
      rw [shlexRun]
      by_cases h1 : c = ','
      · subst h1
        rw [show quoteStep (false, false) ',' = (false, false) from by decide] at hq
        by_cases h2 : !cur.isEmpty || q
        · rw [if_pos rfl, if_pos h2]
          exact ih hnb' .sp (false, false) rfl hq false [] (acc ++ [cur])
        · rw [if_pos rfl, if_neg h2]
          exact ih hnb' .sp (false, false) rfl hq q cur acc
      · rw [if_neg h1]
        by_cases h3 : c = '\''
        · subst h3
          rw [show quoteStep (false, false) '\'' = (true, false) from by decide] at hq
          rw [if_pos rfl]
          exact ih hnb' .sq (true, false) rfl hq q cur acc
        · rw [if_neg h3]
          by_cases h4 : c = '"'
          · subst h4
            rw [show quoteStep (false, false) '"' = (false, true) from by decide] at hq
            rw [if_pos rfl]
            exact ih hnb' .dq (false, true) rfl hq q cur acc
          · rw [if_neg h4, if_neg hc]
            rw [show quoteStep (false, false) c = (false, false) from by
              simp [quoteStep, h3, h4]] at hq
            exact ih hnb' .word (false, false) rfl hq q (cur ++ [c]) acc
    | sq =>
      have hp : p = (true, false) := by simpa [lexQuotes] using hst.symm
      subst hp
      rw [shlexRun]
      by_cases h1 : c = '\''
      · subst h1
        rw [show quoteStep (true, false) '\'' = (false, false) from by decide] at hq
        rw [if_pos rfl]
        exact ih hnb' .word (false, false) rfl hq true cur acc
      · rw [if_neg h1]
        rw [show quoteStep (true, false) c = (true, false) from by
          simp [quoteStep, h1]] at hq
        exact ih hnb' .sq (true, false) rfl hq true (cur ++ [c]) acc
    | dq =>
      have hp : p = (false, true) := by simpa [lexQuotes] using hst.symm
      subst hp
      rw [shlexRun]
      by_cases h1 : c = '"'
      · subst h1
        rw [show quoteStep (false, true) '"' = (false, false) from by decide] at hq
        rw [if_pos rfl]
        exact ih hnb' .word (false, false) rfl hq true cur acc
      · rw [if_neg h1, if_neg hc]
        rw [show quoteStep (false, true) c = (false, true) from by
          simp [quoteStep, h1]] at hq
        exact ih hnb' .dq (false, true) rfl hq true (cur ++ [c]) acc
    | escWord => exact Option.noConfusion hst
    | escDq => exact Option.noConfusion hst



theorem mem_stripList {c : Char} {l : List Char} (h : c ∈ stripList l) : c ∈ l := by
  rw [stripList, List.mem_reverse] at h
  have h2 := (List.dropWhile_sublist (p := pyWs)).mem h
  rw [List.mem_reverse] at h2
  exact (List.dropWhile_sublist (p := pyWs)).mem h2

theorem mem_splitCh {sep : Char} : ∀ {l g : List Char}, g ∈ splitCh sep l →
    ∀ {c : Char}, c ∈ g → c ∈ l := by
  intro l
  induction l with
  | nil =>
    intro g hg c hc
    rw [splitCh, List.mem_singleton] at hg
    subst hg
    exact absurd hc (List.not_mem_nil c)
  | cons x rest ih =>
    intro g hg c hc
    rcases hr : splitCh sep rest with _ | ⟨g0, gs⟩
    · simp only [splitCh, hr, List.mem_singleton] at hg
      subst hg
      rcases List.mem_cons.mp hc with rfl | hcn
      · exact List.mem_cons_self c rest
      · exact absurd hcn (List.not_mem_nil c)
    · simp only [splitCh, hr] at hg
      by_cases hx : x = sep
      · rw [if_pos hx] at hg
        rcases List.mem_cons.mp hg with rfl | hgn
        · exact absurd hc (List.not_mem_nil c)
        · exact List.mem_cons_of_mem x (ih (hr ▸ hgn) hc)
      · rw [if_neg hx] at hg
        rcases List.mem_cons.mp hg with rfl | hgn
        · rcases List.mem_cons.mp hc with rfl | hcn
          · exact List.mem_cons_self c rest
          · exact List.mem_cons_of_mem x (ih (hr ▸ List.mem_cons_self g0 gs) hcn)
        · exact List.mem_cons_of_mem x (ih (hr ▸ List.mem_cons_of_mem g0 hgn) hc)

theorem mem_replFirst_nil {pat : List Char} : ∀ (fuel : Nat) (l : List Char) {c : Char},
    c ∈ replFirst pat [] fuel l → c ∈ l := by
  intro fuel
  induction fuel with
  | zero =>
    intro l c h
    cases l with
    | nil => exact absurd h (List.not_mem_nil c)
    | cons x rest => exact h
  | succ n ih =>
    intro l c h
    cases l with
    | nil => exact absurd h (List.not_mem_nil c)
    | cons x rest =>
      rw [replFirst] at h
      by_cases hp : List.isPrefixOf pat (x :: rest)
      · rw [if_pos hp] at h
        rw [List.nil_append] at h
        exact (List.drop_sublist _ _).mem h
      · rw [if_neg hp] at h
        rcases List.mem_cons.mp h with rfl | hn
        · exact List.mem_cons_self c rest
        · exact List.mem_cons_of_mem x (ih rest hn)

theorem mem_scanArgs : ∀ (l : List Char) (inS inD : Bool) (d : Nat) (out : List Char),
    scanArgs inS inD d l = Option.some out → ∀ {c : Char}, c ∈ out → c ∈ l := by
  intro l
  induction l with
  | nil => intro inS inD d out h; exact absurd h (by simp [scanArgs])
  | cons x rest ih =>
    intro inS inD d out h c hc
    rw [scanArgs] at h
    by_cases hb1 : (!(if x = '\'' && !inD then !inS else inS) &&
        !(if x = '"' && !inS then !inD else inD)) && x = '('
    · rw [if_pos hb1] at h
      obtain ⟨out', hout', rfl⟩ := Option.map_eq_some'.mp h
      rcases List.mem_cons.mp hc with rfl | hcn
      · exact List.mem_cons_self c rest
      · exact List.mem_cons_of_mem x (ih _ _ _ _ hout' hcn)
    · rw [if_neg hb1] at h
      by_cases hb2 : (!(if x = '\'' && !inD then !inS else inS) &&
          !(if x = '"' && !inS then !inD else inD)) && x = ')'
      · rw [if_pos hb2] at h
        by_cases hd : d = 1
        · rw [if_pos hd] at h
          have hout : out = [] := by simpa using h.symm
          subst hout
          exact absurd hc (List.not_mem_nil c)
        · rw [if_neg hd] at h
          obtain ⟨out', hout', rfl⟩ := Option.map_eq_some'.mp h
          rcases List.mem_cons.mp hc with rfl | hcn
          · exact List.mem_cons_self c rest
          · exact List.mem_cons_of_mem x (ih _ _ _ _ hout' hcn)
      · rw [if_neg hb2] at h
        obtain ⟨out', hout', rfl⟩ := Option.map_eq_some'.mp h
        rcases List.mem_cons.mp hc with rfl | hcn
        · exact List.mem_cons_self c rest
        · exact List.mem_cons_of_mem x (ih _ _ _ _ hout' hcn)



theorem shlexTokens_no_error {t : String} (hnb : ∀ c ∈ t.data, c ≠ '\\')
    (hq : quoteRun (false, false) t.data = (false, false)) :
    ∀ e, shlexTokens t ≠ .error e := by
  intro e h
  obtain ⟨r, hr⟩ := shlexRun_safe t.data hnb .sp (false, false) rfl hq false [] []
  rw [shlexTokens, hr] at h
  exact Except.noConfusion h

theorem parseActionText_no_raise {t : String} (hnb : ∀ c ∈ t.data, c ≠ '\\') :
    ∀ e, parseActionText t ≠ .raised e := by
  intro e h
  rw [parseActionText] at h
  by_cases h0 : (!pyIn "(" t && !pyIn ")" t) = true
  · rw [if_pos h0] at h
    exact ParseOutcome.noConfusion h
  · rw [if_neg h0] at h
    rcases hfp : findParen t.data with _ | i <;> simp only [hfp] at h
    · rcases hsc : scanArgs false false 1 t.data with _ | args <;> simp only [hsc] at h
      · exact ParseOutcome.noConfusion h
      · by_cases hemp : (pyStrip (String.mk args)).data.isEmpty = true
        · rw [if_pos hemp] at h
          exact ParseOutcome.noConfusion h
        · rw [if_neg hemp] at h
          have hnb2 : ∀ c ∈ (pyStrip (String.mk args)).data, c ≠ '\\' := by
            intro c hc
            exact hnb c (mem_scanArgs _ _ _ _ _ hsc (mem_stripList hc))
          have hq2 : quoteRun (false, false) (pyStrip (String.mk args)).data =
              (false, false) := by
            rw [pyStrip_mk, data_mk]
            exact quoteRun_stripList (scanArgs_quotes _ _ _ _ _ hsc)
          rcases hst : shlexTokens (pyStrip (String.mk args)) with e' | toks <;>
            rw [hst] at h
          · exact shlexTokens_no_error hnb2 hq2 e' hst
          · exact ParseOutcome.noConfusion h
    · rcases hsc : scanArgs false false 1 (t.data.drop (i + 1)) with _ | args <;>
        simp only [hsc] at h
      · exact ParseOutcome.noConfusion h
      · by_cases hemp : (pyStrip (String.mk args)).data.isEmpty = true
        · rw [if_pos hemp] at h
          exact ParseOutcome.noConfusion h
        · rw [if_neg hemp] at h
          have hnb2 : ∀ c ∈ (pyStrip (String.mk args)).data, c ≠ '\\' := by
            intro c hc
            have h1 := mem_scanArgs _ _ _ _ _ hsc (mem_stripList hc)
            exact hnb c ((List.drop_sublist _ _).mem h1)
          have hq2 : quoteRun (false, false) (pyStrip (String.mk args)).data =
              (false, false) := by
            rw [pyStrip_mk, data_mk]
            exact quoteRun_stripList (scanArgs_quotes _ _ _ _ _ hsc)
          rcases hst : shlexTokens (pyStrip (String.mk args)) with e' | toks <;>
            rw [hst] at h
          · exact shlexTokens_no_error hnb2 hq2 e' hst
          · exact ParseOutcome.noConfusion h

theorem parseLines_no_raise : ∀ (ls : List String),
    (∀ l ∈ ls, ∀ c ∈ l.data, c ≠ '\\') → ∀ e, parseLines ls ≠ .raised e := by
  intro ls
  induction ls with
  | nil => intro _ e h; exact ParseOutcome.noConfusion h
  | cons l rest ih =>
    intro hnb e h
    rw [parseLines] at h
    by_cases hs : pyStartsWith "ACTION:" l = true
    · rw [if_pos hs] at h
      have hnb2 : ∀ c ∈ (pyStrip (pyReplaceFirst l "ACTION:" "")).data, c ≠ '\\' := by
        intro c hc
        have h1 : c ∈ (pyReplaceFirst l "ACTION:" "").data := mem_stripList hc
        have h2 : c ∈ l.data := mem_replFirst_nil _ _ h1
        exact hnb l (List.mem_cons_self l rest) c h2
      exact parseActionText_no_raise hnb2 e h
    · rw [if_neg hs] at h
      exact ih (fun x hx => hnb x (List.mem_cons_of_mem l hx)) e h

theorem parse_action_no_raise (text : String) (hnb : ∀ c ∈ text.data, c ≠ '\\') :
    ∀ e, parse_action text ≠ .raised e := by
  rw [parse_action]
  refine parseLines_no_raise _ ?_
  intro l hl c hcl
  rw [pySplitNL] at hl
  obtain ⟨g, hg, rfl⟩ := List.mem_map.mp hl
  exact hnb c (mem_stripList (mem_splitCh hg hcl))

/-! ## Claim theorems -/

/-- C6: in every step the loop executes at most 5 action lines of the
model reply; a reply with 7 well-formed action lines has exactly the
first 5 executed, in the order they appeared, and the remaining 2
silently dropped (no trace of `t6`/`t7` in the observations, the tool
calls, or the recorded step). -/
theorem C6_at_most_five_actions_per_step :
    (∀ (tools : Tools) (reply : String),
      (okToolCalls (execActions tools (actionLines reply) 0)).length ≤ MAX_ACTIONS_PER_STEP) ∧
    execActions toolsSeven (actionLines replySevenActions) 0 = .ok
      (["Tool: t1\nResult: r1", "Tool: t2\nResult: r2", "Tool: t3\nResult: r3",
        "Tool: t4\nResult: r4", "Tool: t5\nResult: r5"],
       [{ tool := "t1", result := "r1" }, { tool := "t2", result := "r2" },
        { tool := "t3", result := "r3" }, { tool := "t4", result := "r4" },
        { tool := "t5", result := "r5" }]) ∧
    runStep toolsSeven false 1 replySevenActions [] [] [] = .next
      [{ role := "assistant", content := replySevenActions },
       { role := "user", content := observationsMessage
          ["Tool: t1\nResult: r1", "Tool: t2\nResult: r2", "Tool: t3\nResult: r3",
           "Tool: t4\nResult: r4", "Tool: t5\nResult: r5"] }]
      [{ thought := "", tools :=
          [{ tool := "t1", result := "r1" }, { tool := "t2", result := "r2" },
           { tool := "t3", result := "r3" }, { tool := "t4", result := "r4" },
           { tool := "t5", result := "r5" }] }] [] := by
  refine ⟨fun tools reply => ?_, by rfl, by rfl⟩
  simpa using execActions_calls_le tools (actionLines reply) 0

/-- C10: every line whose stripped text begins with `ACTION:` counts
against the per-step cap whether or not it parses: the executor's result
only depends on the first 5 action lines, and after 5 malformed action
lines a well-formed sixth (here `ACTION: t1()`, which parses fine on its
own) is never executed. -/
theorem C10_malformed_lines_consume_slots :
    (∀ (tools : Tools) (reply : String),
      execActions tools (actionLines reply) 0 =
        execActions tools ((actionLines reply).take MAX_ACTIONS_PER_STEP) 0) ∧
    execActions toolsSeven (actionLines replyFiveMalformed) 0 = .ok ([], []) ∧
    parse_action "ACTION: t1()" = .ok "t1" [] [] ∧
    (actionLines replyFiveMalformed).length = 6 := by
  refine ⟨fun tools reply => ?_, by rfl, by decide, by decide⟩
  simpa using execActions_eq_take tools (actionLines reply) 0

/-- C8: execute_tool is total (it returns a string on every input, never
propagating an exception): an unknown tool name yields an error string
containing that name, and a registered tool whose callable raises yields
an error string containing both the tool name and the exception
message. -/
theorem C8_execute_tool_never_raises (tools : Tools) (name : String) (args : List Scalar)
    (kwargs : List (String × Scalar)) :
    (lookupTool tools name = Option.none →
      execute_tool tools name args kwargs = "Error: unknown tool '" ++ name ++ "'" ∧
      pyIn name (execute_tool tools name args kwargs) = true) ∧
    (∀ (f : ToolImpl) (e : String), lookupTool tools name = Option.some f →
      f args kwargs = .error e →
      execute_tool tools name args kwargs = "Error executing " ++ name ++ ": " ++ e ∧
      pyIn name (execute_tool tools name args kwargs) = true ∧
      pyIn e (execute_tool tools name args kwargs) = true) := by
  have hself : ∀ pat : List Char, containsSub pat pat = true := by
    intro pat
    simpa using containsSub_append_self pat []
  constructor
  · intro h
    have he : execute_tool tools name args kwargs = "Error: unknown tool '" ++ name ++ "'" := by
      simp only [execute_tool, h]
    refine ⟨he, ?_⟩
    rw [he]
    show containsSub name.data _ = true
    simp only [String.data_append, List.append_assoc]
    exact containsSub_append_right _ _ _ (containsSub_append_self _ _)
  · intro f e hf hraise
    have he : execute_tool tools name args kwargs = "Error executing " ++ name ++ ": " ++ e := by
      simp only [execute_tool, hf, hraise]
    refine ⟨he, ?_, ?_⟩
    · rw [he]
      show containsSub name.data _ = true
      simp only [String.data_append, List.append_assoc]
      exact containsSub_append_right _ _ _ (containsSub_append_self _ _)
    · rw [he]
      show containsSub e.data _ = true
      simp only [String.data_append, List.append_assoc]
      exact containsSub_append_right _ _ _
        (containsSub_append_right _ _ _ (containsSub_append_right _ _ _ (hself e.data)))

/-- C3 (counterexample): the fixed-order grammar of the spec predicts
the quoted literal `'42'` to coerce to the string `42` and the token
`null` to the null sentinel; the code instead strips the quotes during
tokenization (so `'42'` coerces to the integer 42) and recognizes only
`none` as the sentinel (so `null` stays the string `"null"`). -/
theorem C3_counterexample :
    parse_action "ACTION: f('42', null)" = .ok "f" [.int 42, .str "null"] [] ∧
    Scalar.int 42 ≠ Scalar.str "42" ∧ Scalar.str "null" ≠ Scalar.none := by
  refine ⟨by decide, by decide, by decide⟩

/-- C3 (amended): per-token coercion follows the fixed order
integer → float → boolean → `none` sentinel → quote-strip → literal
string, with two deviations from the spec's wording: the only
null-sentinel spelling is `none` (case-insensitive) — `null` yields the
string `"null"` — and shell-style quotes are removed by the tokenizer
before coercion, so a quoted scalar such as `'42'` coerces by its
unquoted content; the residual quote-stripping branch fires only for
tokens still wrapped in quote characters after tokenization. -/
theorem C3_coercion_cascade :
    coerceValue "42" = .int 42 ∧
    coerceValue "3.5" = .float ((7 : ℚ) / 2) ∧
    coerceValue "TRUE" = .bool true ∧
    coerceValue "False" = .bool false ∧
    coerceValue "None" = Scalar.none ∧
    coerceValue "null" = .str "null" ∧
    coerceValue "'x'" = .str "x" ∧
    coerceValue "abc" = .str "abc" ∧
    shlexTokens "'42'" = .ok ["42"] ∧
    parse_action "ACTION: f('42')" = .ok "f" [.int 42] [] := by
  have hf : coerceValue "3.5" = .float (floatVal "3.5") := by rfl
  have h2 : floatVal "3.5" = (7 : ℚ) / 2 := by
    show ((digitsToNat ['3', '5'] : ℚ)) / ((10 : ℚ) ^ (['5'].length)) = (7 : ℚ) / 2
    norm_num [digitsToNat, List.foldl, show '3'.toNat = 51 from rfl,
      show '5'.toNat = 53 from rfl]
  refine ⟨by decide, hf.trans (by rw [h2]), by decide, by decide, by decide, by decide,
    by decide, by decide, by rfl, by decide⟩

/-- C5 (counterexample): in `NAME('a=b')` the `=` is quoted in the
source text, yet the token is split into a keyword pair: the tokenizer
removes the quotes before the `=` test, so the call parses to keyword
`{a: b}` rather than the positional `['a=b']` the spec predicts. -/
theorem C5_counterexample :
    parse_action "ACTION: NAME('a=b')" = .ok "NAME" [] [("a", .str "b")] ∧
    ParseOutcome.ok "NAME" [] [("a", Scalar.str "b")] ≠
      ParseOutcome.ok "NAME" [Scalar.str "a=b"] [] := by
  refine ⟨by decide, by decide⟩

/-- C5 (amended): the `=` test runs on the token after tokenization has
removed quotes, so every token containing `=` — whether or not the `=`
was quoted in the source text — is split once at its first `=` into key
and value and populates the keyword mapping, where the last occurrence
wins on duplicate keys with no error; a token with no `=` is appended in
order as a positional argument. -/
theorem C5_eq_token_split :
    (∀ (key : String) (w : Scalar) (m : List (String × Scalar)),
      ((dictInsert key w m).lookup key) = Option.some w) ∧
    (∀ (key : String) (w1 w2 : Scalar) (m : List (String × Scalar)),
      dictInsert key w2 (dictInsert key w1 m) = dictInsert key w2 m) ∧
    parse_action "ACTION: f(k=1, k=2)" = .ok "f" [] [("k", .int 2)] ∧
    parse_action "ACTION: NAME('a=b')" = .ok "NAME" [] [("a", .str "b")] ∧
    parse_action "ACTION: f(x, y)" = .ok "f" [.str "x", .str "y"] [] :=
  ⟨fun key w m => dictInsert_lookup key w m,
   fun key w1 w2 m => dictInsert_last_wins key w1 w2 m,
   by decide, by decide, by decide⟩

/-- C4 (counterexample): `parse_action` can raise: on the line
`ACTION: NAME("a\")` the paren scan succeeds (the backslash is not
special to it) but posix escape processing makes the tokenizer see an
unclosed double quote and its `ValueError("No closing quotation")`
escapes — the result is an exception, not the null triple the claim
promises for every malformed input. -/
theorem C4_counterexample :
    parse_action "ACTION: NAME(\"a\\\")" = .raised "No closing quotation" ∧
    ParseOutcome.raised "No closing quotation" ≠ ParseOutcome.null := by
  refine ⟨by decide, by decide⟩

/-- C4 (amended): on every input containing no backslash, `parse_action`
returns a triple and never throws: unbalanced parentheses such as
`NAME(a, b` (and any other malformed input, including quoting that never
closes) yield the null triple; but when the input contains a backslash,
the tokenizer's posix escape processing can leave a quotation unclosed
or an escape dangling, and the resulting `ValueError` propagates out of
`parse_action`. -/
theorem C4_no_raise_without_backslash (text : String)
    (hnb : ∀ c ∈ text.data, c ≠ '\\') :
    (∀ e, parse_action text ≠ .raised e) ∧
    parse_action "ACTION: NAME(a, b" = .null ∧
    parse_action "ACTION: NAME('a" = .null :=
  ⟨parse_action_no_raise text hnb, by decide, by decide⟩

/-- Witness for C4 at the unbalanced-parenthesis input. -/
theorem C4_no_raise_without_backslash_witness :
    parse_action "ACTION: NAME(a, b" ≠ .raised "No closing quotation" :=
  (C4_no_raise_without_backslash "ACTION: NAME(a, b" (by decide)).1 "No closing quotation"

/-- Witness for C8 at concrete inputs: an unregistered name and a
registered tool that raises. -/
theorem C8_execute_tool_never_raises_witness :
    execute_tool toolsRaisingTool "nope" [] [] = "Error: unknown tool 'nope'" ∧
    execute_tool toolsRaisingTool "boom" [] [] = "Error executing boom: kaboom" :=
  ⟨((C8_execute_tool_never_raises toolsRaisingTool "nope" [] []).1 rfl).1,
   ((C8_execute_tool_never_raises toolsRaisingTool "boom" [] []).2 _ "kaboom" rfl rfl).1⟩

/-! ## Loop lemmas -/

/-- A reply in which the `ACTION:` marker occurs is never handled by the
final-answer branch: the step outcome is not `.final`. -/
theorem runStep_not_final_of_action_marker (tools : Tools) (structured : Bool) (sn : Nat)
    (reply : String) (msgs : List Message) (steps : List StepRecord) (out : List OutEvent)
    (hA : pyIn "ACTION:" reply = true) :
    ∀ a s o m, runStep tools structured sn reply msgs steps out ≠ .final a s o m := by
  intro a s o m h
  have hg : finalGuard reply = false := by simp [finalGuard, hA]
  rw [runStep, hg] at h
  simp only [Bool.false_eq_true, if_false] at h
  rcases he : execActions tools (actionLines reply) 0 with e | ⟨os, tcs⟩ <;>
    rw [he] at h <;> simp at h

/-- Explicit form of a loop step whose reply is not a pure final answer
and whose action execution does not raise. -/
theorem runStep_eq_next (tools : Tools) (structured : Bool) (sn : Nat) (reply : String)
    (msgs : List Message) (steps : List StepRecord) (out : List OutEvent)
    (hg : finalGuard reply = false) (os : List String) (tcs : List ToolCall)
    (he : execActions tools (actionLines reply) 0 = .ok (os, tcs)) :
    runStep tools structured sn reply msgs steps out = .next
      ((msgs ++ [{ role := "assistant", content := reply }]) ++
        [{ role := "user", content :=
            if !tcs.isEmpty then observationsMessage os else correctivePrompt }])
      (steps ++ [{ thought := extractThought reply, tools := tcs }])
      (if structured && !tcs.isEmpty then
        out ++ [.jsonLine (stepJsonVal sn (extractThought reply) tcs)]
      else out) := by
  rw [runStep, hg]
  simp only [Bool.false_eq_true, if_false, he]
  by_cases ht : tcs.isEmpty <;> simp [ht]

/-- A run whose model never produces a pure final answer and never makes
the tokenizer raise walks through all remaining iterations, appending
exactly one step record per iteration, and ends (in structured mode)
with the max-steps sentinel record over the final history. -/
theorem runLoop_exhausts (tools : Tools) (llm : List Message → String) (structured : Bool)
    (h1 : ∀ ms, finalGuard (llm ms) = false)
    (h2 : ∀ ms, isOkE (execActions tools (actionLines (llm ms)) 0) = true) :
    ∀ (n sn : Nat) (msgs : List Message) (steps : List StepRecord) (out : List OutEvent),
    (runLoop tools llm structured sn n msgs steps out).result = .maxSteps ∧
    (runLoop tools llm structured sn n msgs steps out).steps.length = steps.length + n ∧
    (structured = true → ∃ pre, (runLoop tools llm structured sn n msgs steps out).output =
      pre ++ [.jsonLine (maxStepsJsonVal ((runLoop tools llm structured sn n msgs steps out).steps))]) := by
  intro n
  induction n with
  | zero =>
    intro sn msgs steps out
    refine ⟨by simp [runLoop], by simp [runLoop], fun hs => ⟨out, ?_⟩⟩
    simp [runLoop, hs]
  | succ k ih =>
    intro sn msgs steps out
    rcases he : execActions tools (actionLines (llm msgs)) 0 with e | ⟨os, tcs⟩
    · exfalso
      have := h2 msgs
      rw [he] at this
      simp [isOkE] at this
    · have hstep := runStep_eq_next tools structured sn (llm msgs) msgs steps out
        (h1 msgs) os tcs he
      rw [runLoop, hstep]
      have := ih (sn + 1)
        ((msgs ++ [{ role := "assistant", content := llm msgs }]) ++
          [{ role := "user", content :=
              if !tcs.isEmpty then observationsMessage os else correctivePrompt }])
        (steps ++ [{ thought := extractThought (llm msgs), tools := tcs }])
        (if structured && !tcs.isEmpty then
          out ++ [.jsonLine (stepJsonVal sn (extractThought (llm msgs)) tcs)]
        else out)
      refine ⟨this.1, ?_, this.2.2⟩
      rw [this.2.1]
      simp only [List.length_append, List.length_cons, List.length_nil]
      omega

/-- Every step outcome extends the output accumulator, and in structured
mode the appended events all have one of the serialized record shapes. -/
theorem runStep_output_extend (tools : Tools) (structured : Bool) (sn : Nat) (reply : String)
    (msgs : List Message) (steps : List StepRecord) (out : List OutEvent) :
    ∃ tail, stepOutOutput (runStep tools structured sn reply msgs steps out) = out ++ tail ∧
      (structured = true → ∀ e ∈ tail, ShapedEvent e) := by
  rw [runStep]
  by_cases hg : finalGuard reply
  · simp only [hg, if_true]
    by_cases hs : structured
    · refine ⟨[.jsonLine (finalJsonVal (extractThought reply) (extractFinal reply) steps)], ?_, ?_⟩
      · simp [stepOutOutput, hs]
      · intro _ e hee
        rw [List.mem_singleton] at hee
        subst hee
        exact Or.inr (Or.inl ⟨_, _, _, rfl⟩)
    · refine ⟨[.plain ("\nFINAL ANALYSIS:\n" ++ extractFinal reply ++ "\n"),
        .plain (String.mk (List.replicate 70 '='))], ?_, ?_⟩
      · simp [stepOutOutput, hs]
      · intro hst
        rw [hst] at hs
        exact absurd rfl hs
  · simp only [hg, if_false]
    rcases he : execActions tools (actionLines reply) 0 with e | ⟨os, tcs⟩
    · refine ⟨[], by simp [stepOutOutput], fun _ e h => absurd h (List.not_mem_nil e)⟩
    · by_cases hc : structured && !tcs.isEmpty
      · refine ⟨[.jsonLine (stepJsonVal sn (extractThought reply) tcs)], ?_, ?_⟩
        · simp [stepOutOutput, hc]
        · intro _ e hee
          rw [List.mem_singleton] at hee
          subst hee
          exact Or.inl ⟨_, _, _, rfl⟩
      · refine ⟨[], ?_, fun _ e h => absurd h (List.not_mem_nil e)⟩
        simp [stepOutOutput, hc]

/-- The loop only appends to the output stream, and in structured mode
every appended event has a serialized record shape. -/
theorem runLoop_output_extend (tools : Tools) (llm : List Message → String)
    (structured : Bool) :
    ∀ (n sn : Nat) (msgs : List Message) (steps : List StepRecord) (out : List OutEvent),
    ∃ tail, (runLoop tools llm structured sn n msgs steps out).output = out ++ tail ∧
      (structured = true → ∀ e ∈ tail, ShapedEvent e) := by
  intro n
  induction n with
  | zero =>
    intro sn msgs steps out
    by_cases hs : structured
    · refine ⟨[.jsonLine (maxStepsJsonVal steps)], by simp [runLoop, hs], ?_⟩
      intro _ e hee
      rw [List.mem_singleton] at hee
      subst hee
      exact Or.inr (Or.inr ⟨_, rfl⟩)
    · refine ⟨[], by simp [runLoop, hs], fun hst _ h => ?_⟩
      rw [hst] at hs
      exact absurd rfl hs
  | succ k ih =>
    intro sn msgs steps out
    obtain ⟨t1, h1, hs1⟩ := runStep_output_extend tools structured sn (llm msgs) msgs steps out
    rw [runLoop]
    rcases hstep : runStep tools structured sn (llm msgs) msgs steps out with
      ⟨a, s, o, m⟩ | ⟨m, s, o⟩ | ⟨e, s, o, m⟩
    · rw [hstep] at h1
      exact ⟨t1, h1, hs1⟩
    · rw [hstep] at h1
      simp only [stepOutOutput] at h1
      obtain ⟨t2, h2, hs2⟩ := ih (sn + 1) m s o
      refine ⟨t1 ++ t2, ?_, ?_⟩
      · rw [h2, h1, List.append_assoc]
      · intro hst e hee
        rcases List.mem_append.mp hee with h | h
        · exact hs1 hst e h
        · exact hs2 hst e h
    · rw [hstep] at h1
      exact ⟨t1, h1, hs1⟩

/-- C1 (counterexample): a reply carrying both `FINAL ANSWER:` and a
well-formed `ACTION:` line is not met with the corrective re-prompt: the
action line is executed and the observations turn is appended instead
(the claim's "triggers a corrective re-prompt" fails; only its
"does not terminate" half holds). -/
theorem C1_counterexample :
    pyIn "FINAL ANSWER:" replyBothMarkers = true ∧
    pyIn "ACTION:" replyBothMarkers = true ∧
    runStep toolsListTables false 1 replyBothMarkers [] [] [] = .next
      [{ role := "assistant", content := replyBothMarkers },
       { role := "user", content := observationsMessage ["Tool: list_tables\nResult: ok"] }]
      [{ thought := "x", tools := [{ tool := "list_tables", result := "ok" }] }] [] ∧
    observationsMessage ["Tool: list_tables\nResult: ok"] ≠ correctivePrompt :=
  ⟨by decide, by decide, by rfl, by decide⟩

/-- C1 (amended): a model reply containing both the `FINAL ANSWER:` and
`ACTION:` markers never terminates the run at that reply — the
final-answer branch is defeated and the reply falls through to the
action branch, which executes the parseable action lines and feeds their
observations back; the corrective re-prompt is appended only when no
action line yields a tool call (for instance when the `ACTION:` marker
appears mid-line only, as in the concrete conjunct). -/
theorem C1_both_markers_do_not_terminate (tools : Tools) (structured : Bool) (sn : Nat)
    (reply : String) (msgs : List Message) (steps : List StepRecord) (out : List OutEvent)
    (hF : pyIn "FINAL ANSWER:" reply = true) (hA : pyIn "ACTION:" reply = true) :
    (∀ a s o m, runStep tools structured sn reply msgs steps out ≠ .final a s o m) ∧
    runStep toolsListTables false 1 replyMarkersNoActionLine [] [] [] = .next
      [{ role := "assistant", content := replyMarkersNoActionLine },
       { role := "user", content := correctivePrompt }]
      [{ thought := "", tools := [] }] [] :=
  ⟨runStep_not_final_of_action_marker tools structured sn reply msgs steps out hA, by rfl⟩

/-- Witness for C1 at the concrete two-marker reply. -/
theorem C1_both_markers_do_not_terminate_witness :
    runStep toolsListTables false 1 replyBothMarkers [] [] [] ≠ .final "done" [] [] [] :=
  (C1_both_markers_do_not_terminate toolsListTables false 1 replyBothMarkers [] [] []
    (by decide) (by decide)).1 "done" [] [] []

/-- C7 (counterexample): a run whose model reply never contains a final
answer can still end before 20 steps with an exception: the action line
`ACTION: NAME("a\")` makes the shlex tokenizer raise
`ValueError("No closing quotation")` at step 1, so the run neither
reaches 20 steps nor reports the max-steps sentinel, and the exception
propagates to the caller. -/
theorem C7_counterexample :
    (run [] llmRaising "q" 20 true).result = .raised "No closing quotation" ∧
    (run [] llmRaising "q" 20 true).steps.length = 0 ∧
    pyIn "FINAL ANSWER:" (llmRaising []) = false := by
  refine ⟨by decide, by decide, by decide⟩

/-- C7 (amended): when no model reply passes the final-answer guard and
no reply's action lines make the tokenizer raise, the run performs
exactly 20 steps, returns the max-steps outcome (no exception), reports
a step history of length 20, and in structured mode ends its event
stream with the max-steps sentinel record over that history. -/
theorem C7_twenty_step_exhaustion (tools : Tools) (llm : List Message → String)
    (question : String) (structured : Bool)
    (h1 : ∀ ms, finalGuard (llm ms) = false)
    (h2 : ∀ ms, isOkE (execActions tools (actionLines (llm ms)) 0) = true) :
    (run tools llm question 20 structured).result = .maxSteps ∧
    (run tools llm question 20 structured).steps.length = 20 ∧
    (structured = true → ∃ pre, (run tools llm question 20 structured).output =
      pre ++ [.jsonLine (maxStepsJsonVal ((run tools llm question 20 structured).steps))]) := by
  have h := runLoop_exhausts tools llm structured h1 h2 20 1
    [{ role := "system", content := system_prompt },
     { role := "user", content := question }] [] []
  exact ⟨h.1, by simpa using h.2.1, h.2.2⟩

/-- Witness for C7 with a model that never acts and never concludes. -/
theorem C7_twenty_step_exhaustion_witness :
    (run [] llmStalling "q" 20 true).result = .maxSteps ∧
    (run [] llmStalling "q" 20 true).steps.length = 20 := by
  have h := C7_twenty_step_exhaustion [] llmStalling "q" true
    (fun ms => by
      show finalGuard "Thought: working" = false
      decide)
    (fun ms => by
      show isOkE (execActions [] (actionLines "Thought: working") 0) = true
      decide)
  exact ⟨h.1, h.2.1⟩

/-- C9 (counterexample): a structured run of 2 steps in which no step
produces a tool call emits no per-step record at all — the whole event
stream is the single max-steps sentinel line, although the step history
has 2 entries (the claim's "every step emits a structured step record"
fails). -/
theorem C9_counterexample :
    (run [] llmChatter "q" 2 true).steps.length = 2 ∧
    (run [] llmChatter "q" 2 true).output.length = 1 ∧
    (run [] llmChatter "q" 2 true).output = [.jsonLine (maxStepsJsonVal
      [{ thought := "", tools := [] }, { thought := "", tools := [] }])] :=
  ⟨by decide, by rfl, by rfl⟩

/-- C9 (amended): in structured mode every emitted event is one line in
one of the three serialized record shapes — the per-step record
`{type: "step", step, thought, tools: [{tool, result}, ...]}` (emitted
only for steps with at least one tool call), the final record
`{type: "final", thought, answer, steps}`, or the max-steps sentinel
variant — and the loop appends events in order, never rewriting earlier
output; the concrete end-to-end run shows one step record followed by
one final record. -/
theorem C9_structured_event_stream :
    (∀ (tools : Tools) (llm : List Message → String) (q : String) (n : Nat) (e : OutEvent),
      e ∈ (run tools llm q n true).output → ShapedEvent e) ∧
    (∀ (tools : Tools) (llm : List Message → String) (structured : Bool) (sn n : Nat)
      (msgs : List Message) (steps : List StepRecord) (out : List OutEvent),
      ∃ tail, (runLoop tools llm structured sn n msgs steps out).output = out ++ tail) ∧
    (run toolsEndToEnd llmEndToEnd "q" 20 true).output =
      [.jsonLine (stepJsonVal 1 "check schema"
        [{ tool := "list_tables", result := "Available tables: audit_events" }]),
       .jsonLine (finalJsonVal "done" "No suspicious activity."
        [{ thought := "check schema",
           tools := [{ tool := "list_tables", result := "Available tables: audit_events" }] }])] := by
  refine ⟨?_, ?_, by rfl⟩
  · intro tools llm q n e he
    obtain ⟨tail, h, hs⟩ := runLoop_output_extend tools llm true n 1
      [{ role := "system", content := system_prompt },
       { role := "user", content := q }] [] []
    have : (run tools llm q n true).output = tail := by simpa using h
    rw [this] at he
    exact hs rfl e he
  · intro tools llm structured sn n msgs steps out
    obtain ⟨tail, h, _⟩ := runLoop_output_extend tools llm structured n sn msgs steps out
    exact ⟨tail, h⟩

/-- Witness for C9: the step record emitted by the end-to-end run is one
of the serialized shapes. -/
theorem C9_structured_event_stream_witness :
    ShapedEvent (.jsonLine (stepJsonVal 1 "check schema"
      [{ tool := "list_tables", result := "Available tables: audit_events" }])) :=
  C9_structured_event_stream.1 toolsEndToEnd llmEndToEnd "q" 20 _
    (by rw [C9_structured_event_stream.2.2]; exact List.mem_cons_self _ _)

end AuditCore







